import Mathlib

/-
Verification development for the singleflight ("spaceflight") call-coalescing
engine of this repository.

Source under scrutiny: the `singleflight` type and its method `Do`
(together with the `call` record type and the constructor `newSingleflight`):

  type singleflight struct { mu sync.Mutex; calls map[string]*call }
  type call struct { wg sync.WaitGroup; val interface\x7b\x7d; err error; dups int }

  func newSingleflight() *singleflight {
      return &singleflight{ calls: make(map[string]*call) }
  }

  func (sf *singleflight) Do(key string, fn func() (interface\x7b\x7d, error)) interface\x7b\x7d {
      sf.mu.Lock()
      if c, exists := sf.calls[key]; exists {
          c.dups++
          sf.mu.Unlock()
          c.wg.Wait()
          return c.val
      }
      c := &call{}
      c.wg.Add(1)
      sf.calls[key] = c
      sf.mu.Unlock()
      c.val, c.err = fn()
      c.wg.Done()
      sf.mu.Lock()
      delete(sf.calls, key)
      sf.mu.Unlock()
      return c.val
  }

Two embeddings are given, both translated line by line from the source:

1. a sequential embedding `doSeq` of one `Do` call over the full
   key-to-record map (association list), used for the claims about a single
   caller: error propagation, panic behaviour, cross-generation caching and
   the freshly constructed group;

2. a small-step interleaving machine (`step`, `run`) in which each thread
   executes the statements of `Do` for one shared key, with the mutex and
   the WaitGroup explicit, used for the concurrency claims (one execution
   per generation, duplicate join, cleanup, lock discipline, dups counter).

The WaitGroup of a record is modelled by its counter being 0 or 1: `wg.Add(1)`
at creation makes `done = false`, `wg.Done()` sets `done = true`, and
`wg.Wait()` is enabled exactly when `done = true`.
-/

namespace Spaceflight

/-- Record for one in-flight key, mirroring the Go struct `call`.
The zero values of the Go fields are `none`, `none`, `0`; the WaitGroup,
after the executing caller's `wg.Add(1)`, is the flag `done = false`. -/
structure SfCall (V E : Type) where
  val : Option V
  err : Option E
  dups : Nat
  done : Bool
deriving DecidableEq

/-- Result of the operation `fn`: a normal return of a value and an
optional error, or a panic while `fn` runs. -/
inductive FnRes (V E : Type) where
  | ok (v : V) (e : Option E)
  | panics
deriving DecidableEq

/-- What a single sequential call of `Do` does, observed from outside:
`Do` returns `c.val` (an `interface` value, possibly nil, hence `Option`),
or blocks forever on `c.wg.Wait()`, or a panic of `fn` unwinds out of `Do`,
or the insert into a nil map panics. -/
inductive DoOutcome (V : Type) where
  | returned (v : Option V)
  | blockedOnWait
  | panicked
  | nilMapInsertPanic
deriving DecidableEq

/-- Full observable result of one sequential `Do` call: the outcome,
the registry `sf.calls` afterwards (`none` models a nil map), and whether
`fn` was invoked. -/
structure DoRes (V E : Type) where
  out : DoOutcome V
  calls : Option (List (String × SfCall V E))
  invoked : Bool
deriving DecidableEq

/-- Go map lookup `m[k]` on the association-list model of `sf.calls`. -/
def lookupKey (k : String) : List (String × SfCall V E) → Option (SfCall V E)
  | [] => none
  | (k', c) :: m => if k' = k then some c else lookupKey k m

/-- Go map delete `delete(m, k)` on the association-list model. -/
def eraseKey (k : String) (m : List (String × SfCall V E)) : List (String × SfCall V E) :=
  m.filter (fun p => p.1 != k)

/-- Go map assignment `m[k] = c` on the association-list model. -/
def insertKey (k : String) (c : SfCall V E) (m : List (String × SfCall V E)) :
    List (String × SfCall V E) :=
  (k, c) :: eraseKey k m

/-- Sequential embedding of one call `sf.Do(key, fn)`, statement by
statement.  The registry is `calls` (with `none` for a nil map, as Go's
zero value of a map field would be; `newSingleflightModel` below never
produces it).  Locking is trivial for a single sequential caller and is
therefore not represented here; the interleaving machine below models it.

Duplicate path (source: `c.dups++; unlock; c.wg.Wait(); return c.val`):
the record's dups field is incremented through the shared pointer, then the
caller waits; with no other thread to call `wg.Done()`, the wait returns
only if the record already has `done = true`, otherwise the caller blocks.

Executor path (source: `c := &call\x7b\x7d; c.wg.Add(1); sf.calls[key] = c;
unlock; c.val, c.err = fn(); c.wg.Done(); lock; delete(sf.calls, key);
unlock; return c.val`): note that `Do` returns only `c.val`; the error of
`fn` is written to `c.err` and never read again, and the delete is
unconditional. If `fn` panics, the assignment to `c.val, c.err`, the
`wg.Done()` and the delete never execute and the panic unwinds out of `Do`. -/
def doSeq (calls : Option (List (String × SfCall V E))) (key : String)
    (fr : FnRes V E) : DoRes V E :=
  let m := calls.getD []
  match lookupKey key m with
  | some c =>
      let mBumped := insertKey key { c with dups := c.dups + 1 } m
      if c.done then ⟨.returned c.val, some mBumped, false⟩
      else ⟨.blockedOnWait, some mBumped, false⟩
  | none =>
      match calls with
      | none => ⟨.nilMapInsertPanic, none, false⟩
      | some m0 =>
          let c0 : SfCall V E := ⟨none, none, 0, false⟩
          let m1 := insertKey key c0 m0
          match fr with
          | .ok v e =>
              let m2 := insertKey key ⟨some v, e, 0, true⟩ m1
              ⟨.returned (some v), some (eraseKey key m2), true⟩
          | .panics => ⟨.panicked, some m1, true⟩

/-- Embedding of the constructor `newSingleflight`: the group owns a
freshly made (hence non-nil and empty) key-to-record map. -/
def newSingleflightModel (V E : Type) : Option (List (String × SfCall V E)) :=
  some []

/-- Program counter of one thread running `sf.Do(key, fn)` for the shared
key of the interleaving machine; the statements of the source, in order.
Indices `i` name the record (`*call`) the thread holds a pointer to.

* `entry`       : about to execute `sf.mu.Lock()`;
* `entryCS`     : holds the lock, about to check `sf.calls[key]` and either
                  join (dups++, unlock) or register (create, Add(1), insert,
                  unlock);
* `execFor i`   : lock released, about to run `c.val, c.err = fn()`;
* `signalFor i` : result written, about to run `c.wg.Done()`;
* `cleanupAcq i`: about to re-acquire the lock for the cleanup;
* `cleanupCS i` : holds the lock, about to `delete(sf.calls, key)`, unlock
                  and return `c.val`;
* `doneE i v`   : executing caller returned `v = c.val`;
* `waitingFor i`: duplicate caller blocked in `c.wg.Wait()`;
* `doneW i v`   : duplicate caller returned `v = c.val`. -/
inductive Pc (V : Type) where
  | entry
  | entryCS
  | execFor (i : Nat)
  | signalFor (i : Nat)
  | cleanupAcq (i : Nat)
  | cleanupCS (i : Nat)
  | doneE (i : Nat) (v : Option V)
  | waitingFor (i : Nat)
  | doneW (i : Nat) (v : Option V)
deriving DecidableEq

/-- Shared state of the interleaving machine for one key:
`lock` is `sf.mu` (the thread holding it, if any), `reg` is the registry
entry `sf.calls[key]` (the id of the record it points to, if present),
`recs` is the heap of records ever allocated (ids below `nextId`; ids at or
above `nextId` are unallocated and stay at the zero record), `pcs` has one
program counter per thread, and `counter` is the invocation counter the
spec instruments the operation with (incremented once each time some
thread's `fn` is invoked). -/
structure SfState (V E : Type) where
  lock : Option Nat
  reg : Option Nat
  recs : Nat → SfCall V E
  nextId : Nat
  pcs : List (Pc V)
  counter : Nat

/-- Write one record of the heap. -/
def updRec (recs : Nat → SfCall V E) (i : Nat) (c : SfCall V E) : Nat → SfCall V E :=
  fun j => if j = i then c else recs j

/-- One step of thread `t`: execute the next statement of `Do` at the
thread's program counter, if it is enabled (a lock acquisition needs the
mutex free, `wg.Wait()` needs the WaitGroup counter at zero, i.e.
`done = true`); otherwise the state is unchanged.  `fns t` is the
value-and-error result thread `t`'s operation would produce (the
interleaving machine models operations that return normally; the panic
path is settled on the sequential embedding `doSeq`). -/
def step (fns : Nat → V × Option E) (s : SfState V E) (t : Nat) : SfState V E :=
  match s.pcs[t]? with
  | none => s
  | some pc =>
    match pc with
    | .entry =>
        if s.lock = none then
          { s with lock := some t, pcs := s.pcs.set t .entryCS }
        else s
    | .entryCS =>
        match s.reg with
        | some i =>
            { s with recs := updRec s.recs i { s.recs i with dups := (s.recs i).dups + 1 },
                     lock := none,
                     pcs := s.pcs.set t (.waitingFor i) }
        | none =>
            { s with recs := updRec s.recs s.nextId ⟨none, none, 0, false⟩,
                     nextId := s.nextId + 1,
                     reg := some s.nextId,
                     lock := none,
                     pcs := s.pcs.set t (.execFor s.nextId) }
    | .execFor i =>
        { s with counter := s.counter + 1,
                 recs := updRec s.recs i
                   { s.recs i with val := some (fns t).1, err := (fns t).2 },
                 pcs := s.pcs.set t (.signalFor i) }
    | .signalFor i =>
        { s with recs := updRec s.recs i { s.recs i with done := true },
                 pcs := s.pcs.set t (.cleanupAcq i) }
    | .cleanupAcq i =>
        if s.lock = none then
          { s with lock := some t, pcs := s.pcs.set t (.cleanupCS i) }
        else s
    | .cleanupCS i =>
        { s with reg := none, lock := none,
                 pcs := s.pcs.set t (.doneE i (s.recs i).val) }
    | .waitingFor i =>
        if (s.recs i).done then
          { s with pcs := s.pcs.set t (.doneW i (s.recs i).val) }
        else s
    | .doneE _ _ => s
    | .doneW _ _ => s

/-- Run the machine under a schedule: at each schedule entry, the named
thread takes one step. -/
def run (fns : Nat → V × Option E) (s : SfState V E) (sched : List Nat) : SfState V E :=
  sched.foldl (step fns) s

/-- Initial state for `n` threads, each about to call `Do` on a freshly
constructed group: mutex free, no registry entry for the key, no records
allocated, every thread at `entry`, invocation counter zero. -/
def init (V E : Type) (n : Nat) : SfState V E :=
  { lock := none, reg := none, recs := fun _ => ⟨none, none, 0, false⟩,
    nextId := 0, pcs := List.replicate n .entry, counter := 0 }

/-- Program counters strictly after the invocation of `fn` on the
executing path: the invocation counter counts exactly the threads whose
program counter lies here. -/
def pastExecB : Pc V → Bool
  | .signalFor _ => true
  | .cleanupAcq _ => true
  | .cleanupCS _ => true
  | .doneE _ _ => true
  | _ => false

/-- Program counters on the executing path (the thread registered a fresh
record and runs, or ran, the operation). -/
def execPathB : Pc V → Bool
  | .execFor _ => true
  | .signalFor _ => true
  | .cleanupAcq _ => true
  | .cleanupCS _ => true
  | .doneE _ _ => true
  | _ => false

/-- Program counters before the thread has passed the registry check. -/
def entryishB : Pc V → Bool
  | .entry => true
  | .entryCS => true
  | _ => false

/-- Program counter of an executing caller that has completed the cleanup
and returned. -/
def isDoneEB : Pc V → Bool
  | .doneE _ _ => true
  | _ => false

/-- Program counters of callers that have returned from `Do`. -/
def finishedB : Pc V → Bool
  | .doneE _ _ => true
  | .doneW _ _ => true
  | _ => false

/-- A thread whose call overlaps the current generation: it has already
passed the registry check, and no execution for the key has completed its
cleanup yet. -/
def midOkB (pc : Pc V) : Bool := !entryishB pc && !isDoneEB pc

/-- Duplicate callers currently joined to record `i` (waiting on it or
returned from it): the record's `dups` field counts exactly these. -/
def waiterForB (i : Nat) : Pc V → Bool
  | .waitingFor j => j == i
  | .doneW j _ => j == i
  | _ => false

/-- The in-flight executing caller of record `i`: it registered the record
and has not yet completed the cleanup. -/
def inFlightForB (i : Nat) : Pc V → Bool
  | .execFor j => j == i
  | .signalFor j => j == i
  | .cleanupAcq j => j == i
  | .cleanupCS j => j == i
  | _ => false

/-- The executing caller of record `i`, in flight or already returned. -/
def execRoleForB (i : Nat) : Pc V → Bool
  | .execFor j => j == i
  | .signalFor j => j == i
  | .cleanupAcq j => j == i
  | .cleanupCS j => j == i
  | .doneE j _ => j == i
  | _ => false

/-- Record id a program counter refers to, if any. -/
def pcRec : Pc V → Option Nat
  | .entry => none
  | .entryCS => none
  | .execFor i => some i
  | .signalFor i => some i
  | .cleanupAcq i => some i
  | .cleanupCS i => some i
  | .doneE i _ => some i
  | .waitingFor i => some i
  | .doneW i _ => some i

/-- Forget the `dups` field of every record: everything a caller of `Do`
can observe (program counters with their returned values, the registry,
the lock, the invocation counter, and the `val`/`err`/`done` fields) is
kept; only the observability counter is zeroed. -/
def eraseDups (s : SfState V E) : SfState V E :=
  { s with recs := fun j => { s.recs j with dups := 0 } }

/-- Concrete operation results used in the concrete runs below: every
thread's operation produces the value 42 and a non-nil error. -/
def fns0 : Nat → Nat × Option String := fun _ => (42, some "boom")

/-- Concrete schedule prefix: three threads all pass the registry check
(thread 0 registers and is about to run the operation, threads 1 and 2
join as duplicates) before any cleanup, forming one generation. -/
def schedA : List Nat := [0, 0, 1, 1, 2, 2]

/-- Concrete schedule suffix: thread 0 runs the operation, signals,
both waiters return, and thread 0 cleans up and returns. -/
def schedB : List Nat := [0, 0, 1, 2, 0, 0]

/-- A handcrafted (unreachable) machine state whose registry entry points
at record 7 while the thread about to run the cleanup delete holds record
3: used to exhibit what the unconditional `delete(sf.calls, key)` does to
an entry for a different record. -/
def s4 : SfState Nat String :=
  { lock := some 0, reg := some 7, recs := fun _ => ⟨none, none, 0, false⟩,
    nextId := 8, pcs := [Pc.cleanupCS 3], counter := 1 }

/-- Inductive invariant of the interleaving machine, preserved by every
step from the initial state.  The fields:

* `lockA`/`lockB`: the mutex is held by thread `t` exactly when `t` is
  inside one of the two critical sections of `Do` (the registry check or
  the cleanup delete);
* `bound`/`boundReg`: every record id mentioned by a program counter or by
  the registry entry has been allocated;
* `inflReg`: while an executing caller of record `i` is in flight, the
  registry entry for the key points at `i`;
* `regInfl`: conversely, a present registry entry has its in-flight
  executing caller;
* `counterEq`: the invocation counter equals the number of threads past
  the `fn()` call;
* `uniq`: each record has at most one executing caller, ever;
* `cleanDone`/`execNotDone`: the record's WaitGroup has been signalled
  exactly when its executing caller is past `wg.Done()`;
* `doneEval`/`doneWval`: a caller that returned `v` returned the record's
  stored `val`, the record was signalled before it returned, and an
  executing caller returned exactly the value its own `fn` produced;
* `valSpec`: once `fn` has run, the record stores the value and the error
  that this (unique) invocation produced;
* `waiterReg`: a duplicate caller joined record `i` while it was the
  registry entry, and that entry disappears only through the cleanup of
  `i`'s executing caller;
* `dupsEq`: the `dups` field of every record counts exactly the duplicate
  callers that joined it;
* `fresh`: unallocated records still hold the zero record. -/
structure Inv (fns : Nat → V × Option E) (s : SfState V E) : Prop where
  lockA : ∀ (t : Nat), s.lock = some t →
    s.pcs[t]? = some Pc.entryCS ∨ ∃ (i : Nat), s.pcs[t]? = some (Pc.cleanupCS i)
  lockB : ∀ (t : Nat),
    (s.pcs[t]? = some Pc.entryCS ∨ ∃ (i : Nat), s.pcs[t]? = some (Pc.cleanupCS i)) →
    s.lock = some t
  bound : ∀ (t i : Nat) (pc : Pc V), s.pcs[t]? = some pc → pcRec pc = some i → i < s.nextId
  boundReg : ∀ (i : Nat), s.reg = some i → i < s.nextId
  inflReg : ∀ (t i : Nat) (pc : Pc V), s.pcs[t]? = some pc → inFlightForB i pc = true → s.reg = some i
  regInfl : ∀ (i : Nat), s.reg = some i →
    ∃ (t : Nat) (pc : Pc V), s.pcs[t]? = some pc ∧ inFlightForB i pc = true
  counterEq : s.counter = s.pcs.countP pastExecB
  uniq : ∀ (t t' i : Nat) (pc pc' : Pc V), s.pcs[t]? = some pc → s.pcs[t']? = some pc' →
    execRoleForB i pc = true → execRoleForB i pc' = true → t = t'
  cleanDone : ∀ (t i : Nat),
    (s.pcs[t]? = some (Pc.cleanupAcq i) ∨ s.pcs[t]? = some (Pc.cleanupCS i)) →
    (s.recs i).done = true
  execNotDone : ∀ (t i : Nat),
    (s.pcs[t]? = some (Pc.execFor i) ∨ s.pcs[t]? = some (Pc.signalFor i)) →
    (s.recs i).done = false
  doneEval : ∀ (t i : Nat) (v : Option V), s.pcs[t]? = some (Pc.doneE i v) →
    (s.recs i).done = true ∧ (s.recs i).val = v ∧ v = some (fns t).1
  doneWval : ∀ (t i : Nat) (v : Option V), s.pcs[t]? = some (Pc.doneW i v) →
    (s.recs i).done = true ∧ (s.recs i).val = v
  valSpec : ∀ (t i : Nat),
    (s.pcs[t]? = some (Pc.signalFor i) ∨ s.pcs[t]? = some (Pc.cleanupAcq i) ∨
      s.pcs[t]? = some (Pc.cleanupCS i)) →
    (s.recs i).val = some (fns t).1 ∧ (s.recs i).err = (fns t).2
  waiterReg : ∀ (t i : Nat) (pc : Pc V), s.pcs[t]? = some pc → waiterForB i pc = true →
    s.reg = some i ∨ ∃ (t' : Nat) (v : Option V), s.pcs[t']? = some (Pc.doneE i v)
  dupsEq : ∀ (i : Nat), (s.recs i).dups = s.pcs.countP (waiterForB i)
  fresh : ∀ (j : Nat), s.nextId ≤ j → s.recs j = ⟨none, none, 0, false⟩

/-- Setting one element changes a `countP` by the difference of the
predicate at the old and at the new element, stated additively. -/
theorem countP_set_add {α : Type} (p : α → Bool) (l : List α) (t : Nat) (a b : α)
    (hb : l[t]? = some b) :
    (l.set t a).countP p + (if p b then 1 else 0)
      = l.countP p + (if p a then 1 else 0) := by
  obtain ⟨ht, hget⟩ := List.getElem?_eq_some.mp hb
  have hcount := List.countP_set p l t a ht
  rw [hget] at hcount
  have hge : (if p b = true then 1 else 0) ≤ l.countP p := by
    by_cases hp : p b = true
    · have hpos : 0 < l.countP p :=
        List.countP_pos_iff.mpr ⟨b, List.getElem?_mem hb, hp⟩
      simpa [hp] using hpos
    · simp [hp]
  omega

/-- A list whose predicate holds at exactly one index (witnessed by the
index and the uniqueness of any index where it holds) has `countP` one. -/
theorem countP_eq_one_of {α : Type} (p : α → Bool) (l : List α) (t : Nat) (b : α)
    (hb : l[t]? = some b) (hp : p b = true)
    (huniq : ∀ t' b', l[t']? = some b' → p b' = true → t' = t) :
    l.countP p = 1 := by
  induction l generalizing t with
  | nil => simp at hb
  | cons x xs ih =>
    cases t with
    | zero =>
        simp only [List.getElem?_cons_zero, Option.some.injEq] at hb
        subst hb
        have hxs : xs.countP p = 0 := by
          rw [List.countP_eq_zero]
          intro a ha hpa
          obtain ⟨j, hj⟩ := List.mem_iff_getElem?.mp ha
          have := huniq (j + 1) a (by simpa using hj) hpa
          omega
        simp [List.countP_cons, hxs, hp]
    | succ t' =>
        have hx : ¬p x = true := by
          intro hpx
          have := huniq 0 x (by simp) hpx
          omega
        rw [List.countP_cons, if_neg hx]
        have hb' : xs[t']? = some b := by simpa using hb
        refine ih t' hb' ?_
        intro t'' b' h1 h2
        have := huniq (t'' + 1) b' (by simpa using h1) h2
        omega

/-- Two predicates that agree on every element of a list give the same
`countP`. -/
theorem countP_congr_fun {α : Type} (p q : α → Bool) (l : List α)
    (h : ∀ a ∈ l, p a = q a) : l.countP p = l.countP q := by
  induction l with
  | nil => rfl
  | cons x xs ih =>
      simp only [List.countP_cons, h x (by simp)]
      rw [ih (fun a ha => h a (by simp [ha]))]

/-- The initial state satisfies the invariant. -/
theorem inv_init (fns : Nat → V × Option E) (n : Nat) : Inv fns (init V E n) := by
  have hget : ∀ (t : Nat) (pc : Pc V), (init V E n).pcs[t]? = some pc → pc = Pc.entry := by
    intro t pc h
    simp only [init, List.getElem?_replicate] at h
    split at h
    · cases h; rfl
    · cases h
  have hcount : ∀ (p : Pc V → Bool), p Pc.entry = false →
      (init V E n).pcs.countP p = 0 := by
    intro p hp
    rw [List.countP_eq_zero]
    intro a ha
    have ha' : a = Pc.entry := List.eq_of_mem_replicate (by simpa [init] using ha)
    simp [ha', hp]
  refine ⟨?_, ?_, ?_, ?_, ?_, ?_, ?_, ?_, ?_, ?_, ?_, ?_, ?_, ?_, ?_, ?_⟩
  · intro t h; simp [init] at h
  · intro t h
    rcases h with h | ⟨i, h⟩ <;> exact absurd (hget _ _ h) (by simp)
  · intro t i pc h hrec; rw [hget _ _ h] at hrec; simp [pcRec] at hrec
  · intro i h; simp [init] at h
  · intro t i pc h hin; rw [hget _ _ h] at hin; simp [inFlightForB] at hin
  · intro i h; simp [init] at h
  · exact (hcount pastExecB rfl).symm
  · intro t t' i pc pc' h h' hr hr'; rw [hget _ _ h] at hr; simp [execRoleForB] at hr
  · intro t i h; rcases h with h | h <;> exact absurd (hget _ _ h) (by simp)
  · intro t i h; rcases h with h | h <;> exact absurd (hget _ _ h) (by simp)
  · intro t i v h; exact absurd (hget _ _ h) (by simp)
  · intro t i v h; exact absurd (hget _ _ h) (by simp)
  · intro t i h; rcases h with h | h | h <;> exact absurd (hget _ _ h) (by simp)
  · intro t i pc h hw; rw [hget _ _ h] at hw; simp [waiterForB] at hw
  · intro i; exact (hcount (waiterForB i) rfl).symm
  · intro j hj; rfl

/-- Reading an index of a list after setting another one. -/
theorem get_set_cases {α : Type} (l : List α) (t t' : Nat) (a b : α)
    (ht : t < l.length) (h : (l.set t a)[t']? = some b) :
    (t' = t ∧ b = a) ∨ (t' ≠ t ∧ l[t']? = some b) := by
  by_cases he : t' = t
  · subst he
    rw [List.getElem?_set_self ht] at h
    cases h
    exact Or.inl ⟨rfl, rfl⟩
  · right
    exact ⟨he, by rwa [List.getElem?_set_ne (Ne.symm he)] at h⟩

/-- An entry different from the overwritten one survives a `set`. -/
theorem get_set_preserve {α : Type} (l : List α) (t t'' : Nat) (a old b : α)
    (hold : l[t]? = some old) (hb : l[t'']? = some b) (hne : b ≠ old) :
    (l.set t a)[t'']? = some b := by
  have hne' : t'' ≠ t := by
    rintro rfl
    rw [hold] at hb
    cases hb
    exact hne rfl
  rwa [List.getElem?_set_ne (Ne.symm hne')]

/-- Setting an element to one of the same predicate class keeps `countP`. -/
theorem countP_set_eq {α : Type} (p : α → Bool) (l : List α) (t : Nat) (a b : α)
    (hb : l[t]? = some b) (hsame : p a = p b) :
    (l.set t a).countP p = l.countP p := by
  have hadd := countP_set_add p l t a b hb
  rw [hsame] at hadd
  omega

/-- Value of `updRec` at the written index. -/
theorem updRec_same (recs : Nat → SfCall V E) (i : Nat) (c : SfCall V E) :
    updRec recs i c i = c := by simp [updRec]

/-- Value of `updRec` at another index. -/
theorem updRec_other (recs : Nat → SfCall V E) (i j : Nat) (c : SfCall V E)
    (h : j ≠ i) : updRec recs i c j = recs j := by simp [updRec, h]

/-- Preservation of the invariant by the `sf.mu.Lock()` step at entry. -/
theorem inv_entryAcq (fns : Nat → V × Option E) (s : SfState V E) (t : Nat)
    (h : Inv fns s) (hpc : s.pcs[t]? = some Pc.entry) (hl : s.lock = none) :
    Inv fns { s with lock := some t, pcs := s.pcs.set t Pc.entryCS } := by
  have ht : t < s.pcs.length := (List.getElem?_eq_some.mp hpc).1
  refine ⟨?_, ?_, ?_, ?_, ?_, ?_, ?_, ?_, ?_, ?_, ?_, ?_, ?_, ?_, ?_, ?_⟩
  · intro t' hlock
    cases hlock
    exact Or.inl (List.getElem?_set_self ht)
  · intro t' h'
    rcases h' with h' | ⟨i, h'⟩
    · rcases get_set_cases _ _ _ _ _ ht h' with ⟨rfl, _⟩ | ⟨hne, hold⟩
      · rfl
      · exact absurd (h.lockB t' (Or.inl hold)) (by simp [hl])
    · rcases get_set_cases _ _ _ _ _ ht h' with ⟨rfl, hbad⟩ | ⟨hne, hold⟩
      · cases hbad
      · exact absurd (h.lockB t' (Or.inr ⟨i, hold⟩)) (by simp [hl])
  · intro t' i pc h' hrec
    rcases get_set_cases _ _ _ _ _ ht h' with ⟨rfl, rfl⟩ | ⟨hne, hold⟩
    · simp [pcRec] at hrec
    · exact h.bound t' i pc hold hrec
  · exact h.boundReg
  · intro t' i pc h' hin
    rcases get_set_cases _ _ _ _ _ ht h' with ⟨rfl, rfl⟩ | ⟨hne, hold⟩
    · simp [inFlightForB] at hin
    · exact h.inflReg t' i pc hold hin
  · intro i hreg
    obtain ⟨t0, pc0, hget0, hin0⟩ := h.regInfl i hreg
    refine ⟨t0, pc0, get_set_preserve _ _ _ _ _ _ hpc hget0 ?_, hin0⟩
    rintro rfl
    simp [inFlightForB] at hin0
  · show s.counter = _
    rw [h.counterEq, countP_set_eq pastExecB s.pcs t Pc.entryCS Pc.entry hpc rfl]
  · intro t1 t2 i pc1 pc2 h1 h2 hr1 hr2
    rcases get_set_cases _ _ _ _ _ ht h1 with ⟨rfl, rfl⟩ | ⟨hne1, hold1⟩
    · simp [execRoleForB] at hr1
    rcases get_set_cases _ _ _ _ _ ht h2 with ⟨rfl, rfl⟩ | ⟨hne2, hold2⟩
    · simp [execRoleForB] at hr2
    exact h.uniq t1 t2 i pc1 pc2 hold1 hold2 hr1 hr2
  · intro t' i h'
    rcases h' with h' | h' <;>
      rcases get_set_cases _ _ _ _ _ ht h' with ⟨rfl, hbad⟩ | ⟨hne, hold⟩
    · cases hbad
    · exact h.cleanDone t' i (Or.inl hold)
    · cases hbad
    · exact h.cleanDone t' i (Or.inr hold)
  · intro t' i h'
    rcases h' with h' | h' <;>
      rcases get_set_cases _ _ _ _ _ ht h' with ⟨rfl, hbad⟩ | ⟨hne, hold⟩
    · cases hbad
    · exact h.execNotDone t' i (Or.inl hold)
    · cases hbad
    · exact h.execNotDone t' i (Or.inr hold)
  · intro t' i v h'
    rcases get_set_cases _ _ _ _ _ ht h' with ⟨rfl, hbad⟩ | ⟨hne, hold⟩
    · cases hbad
    · exact h.doneEval t' i v hold
  · intro t' i v h'
    rcases get_set_cases _ _ _ _ _ ht h' with ⟨rfl, hbad⟩ | ⟨hne, hold⟩
    · cases hbad
    · exact h.doneWval t' i v hold
  · intro t' i h'
    rcases h' with h' | h' | h' <;>
      rcases get_set_cases _ _ _ _ _ ht h' with ⟨rfl, hbad⟩ | ⟨hne, hold⟩
    · cases hbad
    · exact h.valSpec t' i (Or.inl hold)
    · cases hbad
    · exact h.valSpec t' i (Or.inr (Or.inl hold))
    · cases hbad
    · exact h.valSpec t' i (Or.inr (Or.inr hold))
  · intro t' i pc h' hw
    rcases get_set_cases _ _ _ _ _ ht h' with ⟨rfl, rfl⟩ | ⟨hne, hold⟩
    · simp [waiterForB] at hw
    rcases h.waiterReg t' i pc hold hw with hr | ⟨t'', v, hd⟩
    · exact Or.inl hr
    · refine Or.inr ⟨t'', v, get_set_preserve _ _ _ _ _ _ hpc hd ?_⟩
      rintro h''
      cases h''
  · intro i
    show (s.recs i).dups = _
    rw [h.dupsEq i, countP_set_eq (waiterForB i) s.pcs t Pc.entryCS Pc.entry hpc rfl]
  · exact h.fresh

/-- A program counter in the executing role for record `i` mentions `i`. -/
theorem execRole_pcRec (i : Nat) (pc : Pc V) (h : execRoleForB i pc = true) :
    pcRec pc = some i := by
  cases pc <;> simp_all [execRoleForB, pcRec]

/-- A program counter in flight for record `i` mentions `i`. -/
theorem inFlight_pcRec (i : Nat) (pc : Pc V) (h : inFlightForB i pc = true) :
    pcRec pc = some i := by
  cases pc <;> simp_all [inFlightForB, pcRec]

/-- A waiter program counter for record `i` mentions `i`. -/
theorem waiter_pcRec (i : Nat) (pc : Pc V) (h : waiterForB i pc = true) :
    pcRec pc = some i := by
  cases pc <;> simp_all [waiterForB, pcRec]

/-- An in-flight executing caller is in the executing role. -/
theorem inFlight_execRole (i : Nat) (pc : Pc V) (h : inFlightForB i pc = true) :
    execRoleForB i pc = true := by
  cases pc <;> simp_all [inFlightForB, execRoleForB]

/-- Preservation of the invariant by the duplicate-join step: the registry
check finds an existing record, so the caller increments its dups, unlocks
and moves to the wait. -/
theorem inv_entryDup (fns : Nat → V × Option E) (s : SfState V E) (t i : Nat)
    (h : Inv fns s) (hpc : s.pcs[t]? = some Pc.entryCS) (hreg : s.reg = some i) :
    Inv fns { s with
      recs := updRec s.recs i { s.recs i with dups := (s.recs i).dups + 1 },
      lock := none,
      pcs := s.pcs.set t (Pc.waitingFor i) } := by
  have ht : t < s.pcs.length := (List.getElem?_eq_some.mp hpc).1
  have hdone : ∀ j,
      ((updRec s.recs i { s.recs i with dups := (s.recs i).dups + 1 }) j).done
        = (s.recs j).done := by
    intro j
    by_cases hj : j = i
    · subst hj; rw [updRec_same]
    · rw [updRec_other _ _ _ _ hj]
  have hval : ∀ j,
      ((updRec s.recs i { s.recs i with dups := (s.recs i).dups + 1 }) j).val
        = (s.recs j).val := by
    intro j
    by_cases hj : j = i
    · subst hj; rw [updRec_same]
    · rw [updRec_other _ _ _ _ hj]
  have herr : ∀ j,
      ((updRec s.recs i { s.recs i with dups := (s.recs i).dups + 1 }) j).err
        = (s.recs j).err := by
    intro j
    by_cases hj : j = i
    · subst hj; rw [updRec_same]
    · rw [updRec_other _ _ _ _ hj]
  refine ⟨?_, ?_, ?_, ?_, ?_, ?_, ?_, ?_, ?_, ?_, ?_, ?_, ?_, ?_, ?_, ?_⟩
  · intro t' hlock
    exact absurd hlock (by simp)
  · intro t' h'
    rcases h' with h' | ⟨j, h'⟩
    · rcases get_set_cases _ _ _ _ _ ht h' with ⟨rfl, hbad⟩ | ⟨hne, hold⟩
      · cases hbad
      · have h1 := h.lockB t' (Or.inl hold)
        have h2 := h.lockB t (Or.inl hpc)
        rw [h2] at h1
        cases h1
        exact absurd rfl hne
    · rcases get_set_cases _ _ _ _ _ ht h' with ⟨rfl, hbad⟩ | ⟨hne, hold⟩
      · cases hbad
      · have h1 := h.lockB t' (Or.inr ⟨j, hold⟩)
        have h2 := h.lockB t (Or.inl hpc)
        rw [h2] at h1
        cases h1
        exact absurd rfl hne
  · intro t' j pc h' hrec
    rcases get_set_cases _ _ _ _ _ ht h' with ⟨rfl, rfl⟩ | ⟨hne, hold⟩
    · simp only [pcRec, Option.some.injEq] at hrec
      exact hrec ▸ h.boundReg i hreg
    · exact h.bound t' j pc hold hrec
  · exact h.boundReg
  · intro t' j pc h' hin
    rcases get_set_cases _ _ _ _ _ ht h' with ⟨rfl, rfl⟩ | ⟨hne, hold⟩
    · simp [inFlightForB] at hin
    · exact h.inflReg t' j pc hold hin
  · intro j hrj
    obtain ⟨t0, pc0, hget0, hin0⟩ := h.regInfl j hrj
    refine ⟨t0, pc0, get_set_preserve _ _ _ _ _ _ hpc hget0 ?_, hin0⟩
    rintro rfl
    simp [inFlightForB] at hin0
  · show s.counter = _
    rw [h.counterEq,
      countP_set_eq pastExecB s.pcs t (Pc.waitingFor i) Pc.entryCS hpc rfl]
  · intro t1 t2 j pc1 pc2 h1 h2 hr1 hr2
    rcases get_set_cases _ _ _ _ _ ht h1 with ⟨rfl, rfl⟩ | ⟨hne1, hold1⟩
    · simp [execRoleForB] at hr1
    rcases get_set_cases _ _ _ _ _ ht h2 with ⟨rfl, rfl⟩ | ⟨hne2, hold2⟩
    · simp [execRoleForB] at hr2
    exact h.uniq t1 t2 j pc1 pc2 hold1 hold2 hr1 hr2
  · intro t' j h'
    rw [hdone j]
    rcases h' with h' | h' <;>
      rcases get_set_cases _ _ _ _ _ ht h' with ⟨rfl, hbad⟩ | ⟨hne, hold⟩
    · cases hbad
    · exact h.cleanDone t' j (Or.inl hold)
    · cases hbad
    · exact h.cleanDone t' j (Or.inr hold)
  · intro t' j h'
    rw [hdone j]
    rcases h' with h' | h' <;>
      rcases get_set_cases _ _ _ _ _ ht h' with ⟨rfl, hbad⟩ | ⟨hne, hold⟩
    · cases hbad
    · exact h.execNotDone t' j (Or.inl hold)
    · cases hbad
    · exact h.execNotDone t' j (Or.inr hold)
  · intro t' j v h'
    rw [hdone j, hval j]
    rcases get_set_cases _ _ _ _ _ ht h' with ⟨rfl, hbad⟩ | ⟨hne, hold⟩
    · cases hbad
    · exact h.doneEval t' j v hold
  · intro t' j v h'
    rw [hdone j, hval j]
    rcases get_set_cases _ _ _ _ _ ht h' with ⟨rfl, hbad⟩ | ⟨hne, hold⟩
    · cases hbad
    · exact h.doneWval t' j v hold
  · intro t' j h'
    rw [hval j, herr j]
    rcases h' with h' | h' | h' <;>
      rcases get_set_cases _ _ _ _ _ ht h' with ⟨rfl, hbad⟩ | ⟨hne, hold⟩
    · cases hbad
    · exact h.valSpec t' j (Or.inl hold)
    · cases hbad
    · exact h.valSpec t' j (Or.inr (Or.inl hold))
    · cases hbad
    · exact h.valSpec t' j (Or.inr (Or.inr hold))
  · intro t' j pc h' hw
    rcases get_set_cases _ _ _ _ _ ht h' with ⟨rfl, rfl⟩ | ⟨hne, hold⟩
    · simp only [waiterForB] at hw
      have : i = j := by simpa using hw
      exact Or.inl (this ▸ hreg)
    rcases h.waiterReg t' j pc hold hw with hr | ⟨t'', v, hd⟩
    · exact Or.inl hr
    · refine Or.inr ⟨t'', v, get_set_preserve _ _ _ _ _ _ hpc hd ?_⟩
      rintro h''
      cases h''
  · intro j
    show (updRec s.recs i { s.recs i with dups := (s.recs i).dups + 1 } j).dups
      = (s.pcs.set t (Pc.waitingFor i)).countP (waiterForB j)
    by_cases hj : j = i
    · subst hj
      rw [updRec_same]
      show (s.recs j).dups + 1 = _
      have hadd := countP_set_add (waiterForB j) s.pcs t (Pc.waitingFor j) Pc.entryCS hpc
      have hnew : waiterForB (V := V) j (Pc.waitingFor j) = true := by simp [waiterForB]
      have hoold : waiterForB (V := V) j Pc.entryCS = false := rfl
      rw [hnew, hoold] at hadd
      rw [← h.dupsEq j] at hadd
      simp only [if_true, if_false, Bool.false_eq_true] at hadd
      omega
    · rw [updRec_other _ _ _ _ hj, h.dupsEq j,
        countP_set_eq (waiterForB j) s.pcs t (Pc.waitingFor i) Pc.entryCS hpc ?_]
      simp [waiterForB, Ne.symm hj]
  · intro j hj
    have hj' : s.nextId ≤ j := hj
    have hi : i < s.nextId := h.boundReg i hreg
    show updRec s.recs i { s.recs i with dups := (s.recs i).dups + 1 } j
      = ⟨none, none, 0, false⟩
    rw [updRec_other _ _ _ _ (by omega)]
    exact h.fresh j hj'

/-- Preservation of the invariant by the registration step: the registry
check finds no record, so the caller allocates a fresh record (with the
WaitGroup at one, i.e. `done = false`), stores it in the registry, unlocks
and moves on to invoke the operation. -/
theorem inv_entryCreate (fns : Nat → V × Option E) (s : SfState V E) (t : Nat)
    (h : Inv fns s) (hpc : s.pcs[t]? = some Pc.entryCS) (hreg : s.reg = none) :
    Inv fns { s with
      recs := updRec s.recs s.nextId ⟨none, none, 0, false⟩,
      nextId := s.nextId + 1,
      reg := some s.nextId,
      lock := none,
      pcs := s.pcs.set t (Pc.execFor s.nextId) } := by
  have ht : t < s.pcs.length := (List.getElem?_eq_some.mp hpc).1
  have hrecs : ∀ j, j < s.nextId →
      updRec s.recs s.nextId ⟨none, none, 0, false⟩ j = s.recs j := by
    intro j hj
    exact updRec_other _ _ _ _ (by omega)
  have hdone : ∀ j, j < s.nextId →
      (updRec s.recs s.nextId ⟨none, none, 0, false⟩ j).done = (s.recs j).done := by
    intro j hj
    rw [hrecs j hj]
  have hval : ∀ j, j < s.nextId →
      (updRec s.recs s.nextId ⟨none, none, 0, false⟩ j).val = (s.recs j).val := by
    intro j hj
    rw [hrecs j hj]
  have herr : ∀ j, j < s.nextId →
      (updRec s.recs s.nextId ⟨none, none, 0, false⟩ j).err = (s.recs j).err := by
    intro j hj
    rw [hrecs j hj]
  refine ⟨?_, ?_, ?_, ?_, ?_, ?_, ?_, ?_, ?_, ?_, ?_, ?_, ?_, ?_, ?_, ?_⟩
  · intro t' hlock
    exact absurd hlock (by simp)
  · intro t' h'
    rcases h' with h' | ⟨j, h'⟩
    · rcases get_set_cases _ _ _ _ _ ht h' with ⟨rfl, hbad⟩ | ⟨hne, hold⟩
      · cases hbad
      · have h1 := h.lockB t' (Or.inl hold)
        have h2 := h.lockB t (Or.inl hpc)
        rw [h2] at h1
        cases h1
        exact absurd rfl hne
    · rcases get_set_cases _ _ _ _ _ ht h' with ⟨rfl, hbad⟩ | ⟨hne, hold⟩
      · cases hbad
      · have h1 := h.lockB t' (Or.inr ⟨j, hold⟩)
        have h2 := h.lockB t (Or.inl hpc)
        rw [h2] at h1
        cases h1
        exact absurd rfl hne
  · intro t' j pc h' hrec
    rcases get_set_cases _ _ _ _ _ ht h' with ⟨rfl, rfl⟩ | ⟨hne, hold⟩
    · simp only [pcRec, Option.some.injEq] at hrec
      show j < s.nextId + 1
      omega
    · have := h.bound t' j pc hold hrec
      show j < s.nextId + 1
      omega
  · intro j hj
    cases hj
    show s.nextId < s.nextId + 1
    omega
  · intro t' j pc h' hin
    rcases get_set_cases _ _ _ _ _ ht h' with ⟨rfl, rfl⟩ | ⟨hne, hold⟩
    · simp only [inFlightForB] at hin
      have : s.nextId = j := by simpa using hin
      exact this ▸ rfl
    · exact absurd (h.inflReg t' j pc hold hin) (by simp [hreg])
  · intro j hj
    cases hj
    exact ⟨t, Pc.execFor s.nextId, List.getElem?_set_self ht, by simp [inFlightForB]⟩
  · show s.counter = _
    rw [h.counterEq,
      countP_set_eq pastExecB s.pcs t (Pc.execFor s.nextId) Pc.entryCS hpc rfl]
  · intro t1 t2 j pc1 pc2 h1 h2 hr1 hr2
    rcases get_set_cases _ _ _ _ _ ht h1 with ⟨rfl, rfl⟩ | ⟨hne1, hold1⟩ <;>
      rcases get_set_cases _ _ _ _ _ ht h2 with ⟨rfl, rfl⟩ | ⟨hne2, hold2⟩
    · rfl
    · have hj : s.nextId = j := by simpa [execRoleForB] using hr1
      subst hj
      have := h.bound t2 s.nextId pc2 hold2 (execRole_pcRec _ _ hr2)
      omega
    · have hj : s.nextId = j := by simpa [execRoleForB] using hr2
      subst hj
      have := h.bound t1 s.nextId pc1 hold1 (execRole_pcRec _ _ hr1)
      omega
    · exact h.uniq t1 t2 j pc1 pc2 hold1 hold2 hr1 hr2
  · intro t' j h'
    rcases h' with h' | h' <;>
      rcases get_set_cases _ _ _ _ _ ht h' with ⟨rfl, hbad⟩ | ⟨hne, hold⟩
    · cases hbad
    · have hj := h.bound t' j _ hold (by simp [pcRec])
      rw [hdone j hj]
      exact h.cleanDone t' j (Or.inl hold)
    · cases hbad
    · have hj := h.bound t' j _ hold (by simp [pcRec])
      rw [hdone j hj]
      exact h.cleanDone t' j (Or.inr hold)
  · intro t' j h'
    rcases h' with h' | h' <;>
      rcases get_set_cases _ _ _ _ _ ht h' with ⟨rfl, heq⟩ | ⟨hne, hold⟩
    · cases heq
      show (updRec s.recs s.nextId ⟨none, none, 0, false⟩ s.nextId).done = false
      rw [updRec_same]
    · have hj := h.bound t' j _ hold (by simp [pcRec])
      rw [hdone j hj]
      exact h.execNotDone t' j (Or.inl hold)
    · cases heq
    · have hj := h.bound t' j _ hold (by simp [pcRec])
      rw [hdone j hj]
      exact h.execNotDone t' j (Or.inr hold)
  · intro t' j v h'
    rcases get_set_cases _ _ _ _ _ ht h' with ⟨rfl, hbad⟩ | ⟨hne, hold⟩
    · cases hbad
    · have hj := h.bound t' j _ hold (by simp [pcRec])
      rw [hdone j hj, hval j hj]
      exact h.doneEval t' j v hold
  · intro t' j v h'
    rcases get_set_cases _ _ _ _ _ ht h' with ⟨rfl, hbad⟩ | ⟨hne, hold⟩
    · cases hbad
    · have hj := h.bound t' j _ hold (by simp [pcRec])
      rw [hdone j hj, hval j hj]
      exact h.doneWval t' j v hold
  · intro t' j h'
    rcases h' with h' | h' | h' <;>
      rcases get_set_cases _ _ _ _ _ ht h' with ⟨rfl, hbad⟩ | ⟨hne, hold⟩
    · cases hbad
    · have hj := h.bound t' j _ hold (by simp [pcRec])
      rw [hval j hj, herr j hj]
      exact h.valSpec t' j (Or.inl hold)
    · cases hbad
    · have hj := h.bound t' j _ hold (by simp [pcRec])
      rw [hval j hj, herr j hj]
      exact h.valSpec t' j (Or.inr (Or.inl hold))
    · cases hbad
    · have hj := h.bound t' j _ hold (by simp [pcRec])
      rw [hval j hj, herr j hj]
      exact h.valSpec t' j (Or.inr (Or.inr hold))
  · intro t' j pc h' hw
    rcases get_set_cases _ _ _ _ _ ht h' with ⟨rfl, rfl⟩ | ⟨hne, hold⟩
    · simp [waiterForB] at hw
    rcases h.waiterReg t' j pc hold hw with hr | ⟨t'', v, hd⟩
    · exact absurd hr (by simp [hreg])
    · refine Or.inr ⟨t'', v, get_set_preserve _ _ _ _ _ _ hpc hd ?_⟩
      rintro h''
      cases h''
  · intro j
    show (updRec s.recs s.nextId ⟨none, none, 0, false⟩ j).dups
      = (s.pcs.set t (Pc.execFor s.nextId)).countP (waiterForB j)
    rw [countP_set_eq (waiterForB j) s.pcs t (Pc.execFor s.nextId) Pc.entryCS hpc rfl]
    by_cases hj : j = s.nextId
    · subst hj
      rw [updRec_same]
      show 0 = List.countP (waiterForB s.nextId) s.pcs
      rw [← h.dupsEq s.nextId, h.fresh s.nextId (by omega)]
    · rw [updRec_other _ _ _ _ hj]
      exact h.dupsEq j
  · intro j hj
    have hj' : s.nextId + 1 ≤ j := hj
    show updRec s.recs s.nextId ⟨none, none, 0, false⟩ j = ⟨none, none, 0, false⟩
    rw [updRec_other _ _ _ _ (by omega)]
    exact h.fresh j (by omega)

/-- Preservation of the invariant by the invocation step
`c.val, c.err = fn()`: the executing caller runs the operation (the
instrumented counter ticks) and writes the produced value and error into
its record. -/
theorem inv_exec (fns : Nat → V × Option E) (s : SfState V E) (t i : Nat)
    (h : Inv fns s) (hpc : s.pcs[t]? = some (Pc.execFor i)) :
    Inv fns { s with
      counter := s.counter + 1,
      recs := updRec s.recs i
        { s.recs i with val := some (fns t).1, err := (fns t).2 },
      pcs := s.pcs.set t (Pc.signalFor i) } := by
  have ht : t < s.pcs.length := (List.getElem?_eq_some.mp hpc).1
  have hi : i < s.nextId := h.bound t i _ hpc (by simp [pcRec])
  have hrole : execRoleForB (V := V) i (Pc.execFor i) = true := by simp [execRoleForB]
  have noRole : ∀ t' pc', s.pcs[t']? = some pc' → execRoleForB i pc' = true → t' = t := by
    intro t' pc' h' hr
    exact h.uniq t' t i pc' (Pc.execFor i) h' hpc hr hrole
  have hdoneAll : ∀ j,
      (updRec s.recs i { s.recs i with val := some (fns t).1, err := (fns t).2 } j).done
        = (s.recs j).done := by
    intro j
    by_cases hj : j = i
    · subst hj; rw [updRec_same]
    · rw [updRec_other _ _ _ _ hj]
  have hdupsAll : ∀ j,
      (updRec s.recs i { s.recs i with val := some (fns t).1, err := (fns t).2 } j).dups
        = (s.recs j).dups := by
    intro j
    by_cases hj : j = i
    · subst hj; rw [updRec_same]
    · rw [updRec_other _ _ _ _ hj]
  have hvalNe : ∀ j, j ≠ i →
      (updRec s.recs i { s.recs i with val := some (fns t).1, err := (fns t).2 } j).val
        = (s.recs j).val := by
    intro j hj
    rw [updRec_other _ _ _ _ hj]
  have herrNe : ∀ j, j ≠ i →
      (updRec s.recs i { s.recs i with val := some (fns t).1, err := (fns t).2 } j).err
        = (s.recs j).err := by
    intro j hj
    rw [updRec_other _ _ _ _ hj]
  refine ⟨?_, ?_, ?_, ?_, ?_, ?_, ?_, ?_, ?_, ?_, ?_, ?_, ?_, ?_, ?_, ?_⟩
  · intro t' hlock
    rcases h.lockA t' hlock with hcs | ⟨j, hcs⟩
    · refine Or.inl (get_set_preserve _ _ _ _ _ _ hpc hcs ?_)
      intro h''
      cases h''
    · refine Or.inr ⟨j, get_set_preserve _ _ _ _ _ _ hpc hcs ?_⟩
      intro h''
      cases h''
  · intro t' h'
    rcases h' with h' | ⟨j, h'⟩
    · rcases get_set_cases _ _ _ _ _ ht h' with ⟨rfl, hbad⟩ | ⟨hne, hold⟩
      · cases hbad
      · exact h.lockB t' (Or.inl hold)
    · rcases get_set_cases _ _ _ _ _ ht h' with ⟨rfl, hbad⟩ | ⟨hne, hold⟩
      · cases hbad
      · exact h.lockB t' (Or.inr ⟨j, hold⟩)
  · intro t' j pc h' hrec
    rcases get_set_cases _ _ _ _ _ ht h' with ⟨rfl, rfl⟩ | ⟨hne, hold⟩
    · simp only [pcRec, Option.some.injEq] at hrec
      show j < s.nextId
      omega
    · exact h.bound t' j pc hold hrec
  · exact h.boundReg
  · intro t' j pc h' hin
    rcases get_set_cases _ _ _ _ _ ht h' with ⟨rfl, rfl⟩ | ⟨hne, hold⟩
    · have hij : i = j := by simpa [inFlightForB] using hin
      rw [← hij]
      exact h.inflReg _ i (Pc.execFor i) hpc (by simp [inFlightForB])
    · exact h.inflReg t' j pc hold hin
  · intro j hrj
    obtain ⟨t0, pc0, hget0, hin0⟩ := h.regInfl j hrj
    by_cases h0 : t0 = t
    · rw [h0, hpc] at hget0
      cases hget0
      have hij : i = j := by simpa [inFlightForB] using hin0
      exact ⟨t, Pc.signalFor i, List.getElem?_set_self ht, by simp [inFlightForB, hij]⟩
    · exact ⟨t0, pc0, by rwa [List.getElem?_set_ne (Ne.symm h0)], hin0⟩
  · show s.counter + 1 = (s.pcs.set t (Pc.signalFor i)).countP pastExecB
    have hadd := countP_set_add pastExecB s.pcs t (Pc.signalFor i) (Pc.execFor i) hpc
    have h1 : pastExecB (V := V) (Pc.signalFor i) = true := rfl
    have h2 : pastExecB (V := V) (Pc.execFor i) = false := rfl
    rw [h1, h2] at hadd
    simp only [if_true, if_false, Bool.false_eq_true] at hadd
    rw [h.counterEq]
    omega
  · intro t1 t2 j pc1 pc2 h1 h2 hr1 hr2
    rcases get_set_cases _ _ _ _ _ ht h1 with ⟨rfl, rfl⟩ | ⟨hne1, hold1⟩ <;>
      rcases get_set_cases _ _ _ _ _ ht h2 with ⟨rfl, rfl⟩ | ⟨hne2, hold2⟩
    · rfl
    · have hij : i = j := by simpa [execRoleForB] using hr1
      rw [← hij] at hr2
      exact (noRole t2 pc2 hold2 hr2).symm
    · have hij : i = j := by simpa [execRoleForB] using hr2
      rw [← hij] at hr1
      exact noRole t1 pc1 hold1 hr1
    · exact h.uniq t1 t2 j pc1 pc2 hold1 hold2 hr1 hr2
  · intro t' j h'
    rw [hdoneAll j]
    rcases h' with h' | h' <;>
      rcases get_set_cases _ _ _ _ _ ht h' with ⟨rfl, hbad⟩ | ⟨hne, hold⟩
    · cases hbad
    · exact h.cleanDone t' j (Or.inl hold)
    · cases hbad
    · exact h.cleanDone t' j (Or.inr hold)
  · intro t' j h'
    rw [hdoneAll j]
    rcases h' with h' | h' <;>
      rcases get_set_cases _ _ _ _ _ ht h' with ⟨rfl, heq⟩ | ⟨hne, hold⟩
    · cases heq
    · exact h.execNotDone t' j (Or.inl hold)
    · cases heq
      exact h.execNotDone _ i (Or.inl hpc)
    · exact h.execNotDone t' j (Or.inr hold)
  · intro t' j v h'
    rcases get_set_cases _ _ _ _ _ ht h' with ⟨rfl, hbad⟩ | ⟨hne, hold⟩
    · cases hbad
    · have hji : j ≠ i := by
        intro hji
        rw [hji] at hold
        have he := noRole t' (Pc.doneE i v) hold (by simp [execRoleForB])
        rw [he, hpc] at hold
        exact absurd hold (by simp)
      rw [hdoneAll j, hvalNe j hji]
      exact h.doneEval t' j v hold
  · intro t' j v h'
    rcases get_set_cases _ _ _ _ _ ht h' with ⟨rfl, hbad⟩ | ⟨hne, hold⟩
    · cases hbad
    · have hji : j ≠ i := by
        intro hji
        have hd := (h.doneWval t' j v hold).1
        have hnd := h.execNotDone t i (Or.inl hpc)
        rw [hji] at hd
        rw [hd] at hnd
        simp at hnd
      rw [hdoneAll j, hvalNe j hji]
      exact h.doneWval t' j v hold
  · intro t' j h'
    rcases h' with h' | h' | h' <;>
      rcases get_set_cases _ _ _ _ _ ht h' with ⟨rfl, heq⟩ | ⟨hne, hold⟩
    · cases heq
      constructor
      · show (updRec s.recs i _ i).val = _
        rw [updRec_same]
      · show (updRec s.recs i _ i).err = _
        rw [updRec_same]
    · have hji : j ≠ i := by
        intro hji
        exact hne (noRole t' (Pc.signalFor j) hold (by simp [execRoleForB, hji]))
      rw [hvalNe j hji, herrNe j hji]
      exact h.valSpec t' j (Or.inl hold)
    · cases heq
    · have hji : j ≠ i := by
        intro hji
        exact hne (noRole t' (Pc.cleanupAcq j) hold (by simp [execRoleForB, hji]))
      rw [hvalNe j hji, herrNe j hji]
      exact h.valSpec t' j (Or.inr (Or.inl hold))
    · cases heq
    · have hji : j ≠ i := by
        intro hji
        exact hne (noRole t' (Pc.cleanupCS j) hold (by simp [execRoleForB, hji]))
      rw [hvalNe j hji, herrNe j hji]
      exact h.valSpec t' j (Or.inr (Or.inr hold))
  · intro t' j pc h' hw
    rcases get_set_cases _ _ _ _ _ ht h' with ⟨rfl, rfl⟩ | ⟨hne, hold⟩
    · simp [waiterForB] at hw
    rcases h.waiterReg t' j pc hold hw with hr | ⟨t'', v, hd⟩
    · exact Or.inl hr
    · refine Or.inr ⟨t'', v, get_set_preserve _ _ _ _ _ _ hpc hd ?_⟩
      intro h''
      cases h''
  · intro j
    show (updRec s.recs i _ j).dups = _
    rw [hdupsAll j, h.dupsEq j,
      countP_set_eq (waiterForB j) s.pcs t (Pc.signalFor i) (Pc.execFor i) hpc rfl]
  · intro j hj
    have hj' : s.nextId ≤ j := hj
    show updRec s.recs i _ j = ⟨none, none, 0, false⟩
    rw [updRec_other _ _ _ _ (by omega)]
    exact h.fresh j hj'

/-- Preservation of the invariant by the signalling step `c.wg.Done()`:
the executing caller marks the record complete, releasing every waiter. -/
theorem inv_signal (fns : Nat → V × Option E) (s : SfState V E) (t i : Nat)
    (h : Inv fns s) (hpc : s.pcs[t]? = some (Pc.signalFor i)) :
    Inv fns { s with
      recs := updRec s.recs i { s.recs i with done := true },
      pcs := s.pcs.set t (Pc.cleanupAcq i) } := by
  have ht : t < s.pcs.length := (List.getElem?_eq_some.mp hpc).1
  have hi : i < s.nextId := h.bound t i _ hpc (by simp [pcRec])
  have hrole : execRoleForB (V := V) i (Pc.signalFor i) = true := by simp [execRoleForB]
  have noRole : ∀ t' pc', s.pcs[t']? = some pc' → execRoleForB i pc' = true → t' = t := by
    intro t' pc' h' hr
    exact h.uniq t' t i pc' (Pc.signalFor i) h' hpc hr hrole
  have hvalAll : ∀ j,
      (updRec s.recs i { s.recs i with done := true } j).val = (s.recs j).val := by
    intro j
    by_cases hj : j = i
    · subst hj; rw [updRec_same]
    · rw [updRec_other _ _ _ _ hj]
  have herrAll : ∀ j,
      (updRec s.recs i { s.recs i with done := true } j).err = (s.recs j).err := by
    intro j
    by_cases hj : j = i
    · subst hj; rw [updRec_same]
    · rw [updRec_other _ _ _ _ hj]
  have hdupsAll : ∀ j,
      (updRec s.recs i { s.recs i with done := true } j).dups = (s.recs j).dups := by
    intro j
    by_cases hj : j = i
    · subst hj; rw [updRec_same]
    · rw [updRec_other _ _ _ _ hj]
  have hdoneNe : ∀ j, j ≠ i →
      (updRec s.recs i { s.recs i with done := true } j).done = (s.recs j).done := by
    intro j hj
    rw [updRec_other _ _ _ _ hj]
  have hdoneAt : (updRec s.recs i { s.recs i with done := true } i).done = true := by
    rw [updRec_same]
  refine ⟨?_, ?_, ?_, ?_, ?_, ?_, ?_, ?_, ?_, ?_, ?_, ?_, ?_, ?_, ?_, ?_⟩
  · intro t' hlock
    rcases h.lockA t' hlock with hcs | ⟨j, hcs⟩
    · refine Or.inl (get_set_preserve _ _ _ _ _ _ hpc hcs ?_)
      intro h''
      cases h''
    · refine Or.inr ⟨j, get_set_preserve _ _ _ _ _ _ hpc hcs ?_⟩
      intro h''
      cases h''
  · intro t' h'
    rcases h' with h' | ⟨j, h'⟩
    · rcases get_set_cases _ _ _ _ _ ht h' with ⟨rfl, hbad⟩ | ⟨hne, hold⟩
      · cases hbad
      · exact h.lockB t' (Or.inl hold)
    · rcases get_set_cases _ _ _ _ _ ht h' with ⟨rfl, hbad⟩ | ⟨hne, hold⟩
      · cases hbad
      · exact h.lockB t' (Or.inr ⟨j, hold⟩)
  · intro t' j pc h' hrec
    rcases get_set_cases _ _ _ _ _ ht h' with ⟨rfl, rfl⟩ | ⟨hne, hold⟩
    · simp only [pcRec, Option.some.injEq] at hrec
      show j < s.nextId
      omega
    · exact h.bound t' j pc hold hrec
  · exact h.boundReg
  · intro t' j pc h' hin
    rcases get_set_cases _ _ _ _ _ ht h' with ⟨rfl, rfl⟩ | ⟨hne, hold⟩
    · have hij : i = j := by simpa [inFlightForB] using hin
      rw [← hij]
      exact h.inflReg _ i (Pc.signalFor i) hpc (by simp [inFlightForB])
    · exact h.inflReg t' j pc hold hin
  · intro j hrj
    obtain ⟨t0, pc0, hget0, hin0⟩ := h.regInfl j hrj
    by_cases h0 : t0 = t
    · rw [h0, hpc] at hget0
      cases hget0
      have hij : i = j := by simpa [inFlightForB] using hin0
      exact ⟨t, Pc.cleanupAcq i, List.getElem?_set_self ht, by simp [inFlightForB, hij]⟩
    · exact ⟨t0, pc0, by rwa [List.getElem?_set_ne (Ne.symm h0)], hin0⟩
  · show s.counter = (s.pcs.set t (Pc.cleanupAcq i)).countP pastExecB
    rw [h.counterEq,
      countP_set_eq pastExecB s.pcs t (Pc.cleanupAcq i) (Pc.signalFor i) hpc rfl]
  · intro t1 t2 j pc1 pc2 h1 h2 hr1 hr2
    rcases get_set_cases _ _ _ _ _ ht h1 with ⟨rfl, rfl⟩ | ⟨hne1, hold1⟩ <;>
      rcases get_set_cases _ _ _ _ _ ht h2 with ⟨rfl, rfl⟩ | ⟨hne2, hold2⟩
    · rfl
    · have hij : i = j := by simpa [execRoleForB] using hr1
      rw [← hij] at hr2
      exact (noRole t2 pc2 hold2 hr2).symm
    · have hij : i = j := by simpa [execRoleForB] using hr2
      rw [← hij] at hr1
      exact noRole t1 pc1 hold1 hr1
    · exact h.uniq t1 t2 j pc1 pc2 hold1 hold2 hr1 hr2
  · intro t' j h'
    by_cases hj : j = i
    · rw [hj]
      exact hdoneAt
    · rw [hdoneNe j hj]
      rcases h' with h' | h' <;>
        rcases get_set_cases _ _ _ _ _ ht h' with ⟨rfl, heq⟩ | ⟨hne, hold⟩
      · cases heq
        exact absurd rfl hj
      · exact h.cleanDone t' j (Or.inl hold)
      · cases heq
      · exact h.cleanDone t' j (Or.inr hold)
  · intro t' j h'
    rcases h' with h' | h' <;>
      rcases get_set_cases _ _ _ _ _ ht h' with ⟨rfl, heq⟩ | ⟨hne, hold⟩
    · cases heq
    · have hji : j ≠ i := by
        intro hji
        exact hne (noRole t' (Pc.execFor j) hold (by simp [execRoleForB, hji]))
      rw [hdoneNe j hji]
      exact h.execNotDone t' j (Or.inl hold)
    · cases heq
    · have hji : j ≠ i := by
        intro hji
        exact hne (noRole t' (Pc.signalFor j) hold (by simp [execRoleForB, hji]))
      rw [hdoneNe j hji]
      exact h.execNotDone t' j (Or.inr hold)
  · intro t' j v h'
    rcases get_set_cases _ _ _ _ _ ht h' with ⟨rfl, hbad⟩ | ⟨hne, hold⟩
    · cases hbad
    · obtain ⟨hd, hv, hf⟩ := h.doneEval t' j v hold
      refine ⟨?_, ?_, hf⟩
      · by_cases hj : j = i
        · rw [hj]; exact hdoneAt
        · rw [hdoneNe j hj]; exact hd
      · rw [hvalAll j]; exact hv
  · intro t' j v h'
    rcases get_set_cases _ _ _ _ _ ht h' with ⟨rfl, hbad⟩ | ⟨hne, hold⟩
    · cases hbad
    · obtain ⟨hd, hv⟩ := h.doneWval t' j v hold
      refine ⟨?_, ?_⟩
      · by_cases hj : j = i
        · rw [hj]; exact hdoneAt
        · rw [hdoneNe j hj]; exact hd
      · rw [hvalAll j]; exact hv
  · intro t' j h'
    rw [hvalAll j, herrAll j]
    rcases h' with h' | h' | h' <;>
      rcases get_set_cases _ _ _ _ _ ht h' with ⟨rfl, heq⟩ | ⟨hne, hold⟩
    · cases heq
    · exact h.valSpec t' j (Or.inl hold)
    · cases heq
      exact h.valSpec _ i (Or.inl hpc)
    · exact h.valSpec t' j (Or.inr (Or.inl hold))
    · cases heq
    · exact h.valSpec t' j (Or.inr (Or.inr hold))
  · intro t' j pc h' hw
    rcases get_set_cases _ _ _ _ _ ht h' with ⟨rfl, rfl⟩ | ⟨hne, hold⟩
    · simp [waiterForB] at hw
    rcases h.waiterReg t' j pc hold hw with hr | ⟨t'', v, hd⟩
    · exact Or.inl hr
    · refine Or.inr ⟨t'', v, get_set_preserve _ _ _ _ _ _ hpc hd ?_⟩
      intro h''
      cases h''
  · intro j
    show (updRec s.recs i _ j).dups = _
    rw [hdupsAll j, h.dupsEq j,
      countP_set_eq (waiterForB j) s.pcs t (Pc.cleanupAcq i) (Pc.signalFor i) hpc rfl]
  · intro j hj
    have hj' : s.nextId ≤ j := hj
    show updRec s.recs i _ j = ⟨none, none, 0, false⟩
    rw [updRec_other _ _ _ _ (by omega)]
    exact h.fresh j hj'

/-- Preservation of the invariant by the cleanup `sf.mu.Lock()` step. -/
theorem inv_cleanupAcq (fns : Nat → V × Option E) (s : SfState V E) (t i : Nat)
    (h : Inv fns s) (hpc : s.pcs[t]? = some (Pc.cleanupAcq i)) (hl : s.lock = none) :
    Inv fns { s with lock := some t, pcs := s.pcs.set t (Pc.cleanupCS i) } := by
  have ht : t < s.pcs.length := (List.getElem?_eq_some.mp hpc).1
  have hrole : execRoleForB (V := V) i (Pc.cleanupAcq i) = true := by simp [execRoleForB]
  have noRole : ∀ t' pc', s.pcs[t']? = some pc' → execRoleForB i pc' = true → t' = t := by
    intro t' pc' h' hr
    exact h.uniq t' t i pc' (Pc.cleanupAcq i) h' hpc hr hrole
  have hi : i < s.nextId := h.bound t i _ hpc (by simp [pcRec])
  refine ⟨?_, ?_, ?_, ?_, ?_, ?_, ?_, ?_, ?_, ?_, ?_, ?_, ?_, ?_, ?_, ?_⟩
  · intro t' hlock
    cases hlock
    exact Or.inr ⟨i, List.getElem?_set_self ht⟩
  · intro t' h'
    rcases h' with h' | ⟨j, h'⟩
    · rcases get_set_cases _ _ _ _ _ ht h' with ⟨rfl, hbad⟩ | ⟨hne, hold⟩
      · cases hbad
      · exact absurd (h.lockB t' (Or.inl hold)) (by simp [hl])
    · rcases get_set_cases _ _ _ _ _ ht h' with ⟨rfl, heq⟩ | ⟨hne, hold⟩
      · cases heq
        rfl
      · exact absurd (h.lockB t' (Or.inr ⟨j, hold⟩)) (by simp [hl])
  · intro t' j pc h' hrec
    rcases get_set_cases _ _ _ _ _ ht h' with ⟨rfl, rfl⟩ | ⟨hne, hold⟩
    · simp only [pcRec, Option.some.injEq] at hrec
      show j < s.nextId
      omega
    · exact h.bound t' j pc hold hrec
  · exact h.boundReg
  · intro t' j pc h' hin
    rcases get_set_cases _ _ _ _ _ ht h' with ⟨rfl, rfl⟩ | ⟨hne, hold⟩
    · have hij : i = j := by simpa [inFlightForB] using hin
      rw [← hij]
      exact h.inflReg _ i (Pc.cleanupAcq i) hpc (by simp [inFlightForB])
    · exact h.inflReg t' j pc hold hin
  · intro j hrj
    obtain ⟨t0, pc0, hget0, hin0⟩ := h.regInfl j hrj
    by_cases h0 : t0 = t
    · rw [h0, hpc] at hget0
      cases hget0
      have hij : i = j := by simpa [inFlightForB] using hin0
      exact ⟨t, Pc.cleanupCS i, List.getElem?_set_self ht, by simp [inFlightForB, hij]⟩
    · exact ⟨t0, pc0, by rwa [List.getElem?_set_ne (Ne.symm h0)], hin0⟩
  · show s.counter = (s.pcs.set t (Pc.cleanupCS i)).countP pastExecB
    rw [h.counterEq,
      countP_set_eq pastExecB s.pcs t (Pc.cleanupCS i) (Pc.cleanupAcq i) hpc rfl]
  · intro t1 t2 j pc1 pc2 h1 h2 hr1 hr2
    rcases get_set_cases _ _ _ _ _ ht h1 with ⟨rfl, rfl⟩ | ⟨hne1, hold1⟩ <;>
      rcases get_set_cases _ _ _ _ _ ht h2 with ⟨rfl, rfl⟩ | ⟨hne2, hold2⟩
    · rfl
    · have hij : i = j := by simpa [execRoleForB] using hr1
      rw [← hij] at hr2
      exact (noRole t2 pc2 hold2 hr2).symm
    · have hij : i = j := by simpa [execRoleForB] using hr2
      rw [← hij] at hr1
      exact noRole t1 pc1 hold1 hr1
    · exact h.uniq t1 t2 j pc1 pc2 hold1 hold2 hr1 hr2
  · intro t' j h'
    rcases h' with h' | h' <;>
      rcases get_set_cases _ _ _ _ _ ht h' with ⟨rfl, heq⟩ | ⟨hne, hold⟩
    · cases heq
    · exact h.cleanDone t' j (Or.inl hold)
    · cases heq
      exact h.cleanDone _ i (Or.inl hpc)
    · exact h.cleanDone t' j (Or.inr hold)
  · intro t' j h'
    rcases h' with h' | h' <;>
      rcases get_set_cases _ _ _ _ _ ht h' with ⟨rfl, hbad⟩ | ⟨hne, hold⟩
    · cases hbad
    · exact h.execNotDone t' j (Or.inl hold)
    · cases hbad
    · exact h.execNotDone t' j (Or.inr hold)
  · intro t' j v h'
    rcases get_set_cases _ _ _ _ _ ht h' with ⟨rfl, hbad⟩ | ⟨hne, hold⟩
    · cases hbad
    · exact h.doneEval t' j v hold
  · intro t' j v h'
    rcases get_set_cases _ _ _ _ _ ht h' with ⟨rfl, hbad⟩ | ⟨hne, hold⟩
    · cases hbad
    · exact h.doneWval t' j v hold
  · intro t' j h'
    rcases h' with h' | h' | h' <;>
      rcases get_set_cases _ _ _ _ _ ht h' with ⟨rfl, heq⟩ | ⟨hne, hold⟩
    · cases heq
    · exact h.valSpec t' j (Or.inl hold)
    · cases heq
    · exact h.valSpec t' j (Or.inr (Or.inl hold))
    · cases heq
      exact h.valSpec _ i (Or.inr (Or.inl hpc))
    · exact h.valSpec t' j (Or.inr (Or.inr hold))
  · intro t' j pc h' hw
    rcases get_set_cases _ _ _ _ _ ht h' with ⟨rfl, rfl⟩ | ⟨hne, hold⟩
    · simp [waiterForB] at hw
    rcases h.waiterReg t' j pc hold hw with hr | ⟨t'', v, hd⟩
    · exact Or.inl hr
    · refine Or.inr ⟨t'', v, get_set_preserve _ _ _ _ _ _ hpc hd ?_⟩
      intro h''
      cases h''
  · intro j
    show (s.recs j).dups = _
    rw [h.dupsEq j,
      countP_set_eq (waiterForB j) s.pcs t (Pc.cleanupCS i) (Pc.cleanupAcq i) hpc rfl]
  · exact h.fresh

/-- Preservation of the invariant by the cleanup delete step: under the
lock, `delete(sf.calls, key)` removes the registry entry unconditionally,
the lock is released and the executing caller returns `c.val`. -/
theorem inv_cleanupCS (fns : Nat → V × Option E) (s : SfState V E) (t i : Nat)
    (h : Inv fns s) (hpc : s.pcs[t]? = some (Pc.cleanupCS i)) :
    Inv fns { s with
      reg := none,
      lock := none,
      pcs := s.pcs.set t (Pc.doneE i (s.recs i).val) } := by
  have ht : t < s.pcs.length := (List.getElem?_eq_some.mp hpc).1
  have hrole : execRoleForB (V := V) i (Pc.cleanupCS i) = true := by simp [execRoleForB]
  have noRole : ∀ t' pc', s.pcs[t']? = some pc' → execRoleForB i pc' = true → t' = t := by
    intro t' pc' h' hr
    exact h.uniq t' t i pc' (Pc.cleanupCS i) h' hpc hr hrole
  have hreg : s.reg = some i :=
    h.inflReg t i (Pc.cleanupCS i) hpc (by simp [inFlightForB])
  have hi : i < s.nextId := h.bound t i _ hpc (by simp [pcRec])
  refine ⟨?_, ?_, ?_, ?_, ?_, ?_, ?_, ?_, ?_, ?_, ?_, ?_, ?_, ?_, ?_, ?_⟩
  · intro t' hlock
    exact absurd hlock (by simp)
  · intro t' h'
    rcases h' with h' | ⟨j, h'⟩
    · rcases get_set_cases _ _ _ _ _ ht h' with ⟨rfl, hbad⟩ | ⟨hne, hold⟩
      · cases hbad
      · have h1 := h.lockB t' (Or.inl hold)
        have h2 := h.lockB t (Or.inr ⟨i, hpc⟩)
        rw [h2] at h1
        cases h1
        exact absurd rfl hne
    · rcases get_set_cases _ _ _ _ _ ht h' with ⟨rfl, hbad⟩ | ⟨hne, hold⟩
      · cases hbad
      · have h1 := h.lockB t' (Or.inr ⟨j, hold⟩)
        have h2 := h.lockB t (Or.inr ⟨i, hpc⟩)
        rw [h2] at h1
        cases h1
        exact absurd rfl hne
  · intro t' j pc h' hrec
    rcases get_set_cases _ _ _ _ _ ht h' with ⟨rfl, rfl⟩ | ⟨hne, hold⟩
    · simp only [pcRec, Option.some.injEq] at hrec
      show j < s.nextId
      omega
    · exact h.bound t' j pc hold hrec
  · intro j hj
    cases hj
  · intro t' j pc h' hin
    rcases get_set_cases _ _ _ _ _ ht h' with ⟨rfl, rfl⟩ | ⟨hne, hold⟩
    · simp [inFlightForB] at hin
    · have hj := h.inflReg t' j pc hold hin
      rw [hreg] at hj
      cases hj
      exact absurd (noRole t' pc hold (inFlight_execRole _ _ hin)) hne
  · intro j hj
    cases hj
  · show s.counter = (s.pcs.set t (Pc.doneE i (s.recs i).val)).countP pastExecB
    rw [h.counterEq,
      countP_set_eq pastExecB s.pcs t (Pc.doneE i (s.recs i).val) (Pc.cleanupCS i) hpc rfl]
  · intro t1 t2 j pc1 pc2 h1 h2 hr1 hr2
    rcases get_set_cases _ _ _ _ _ ht h1 with ⟨rfl, rfl⟩ | ⟨hne1, hold1⟩ <;>
      rcases get_set_cases _ _ _ _ _ ht h2 with ⟨rfl, rfl⟩ | ⟨hne2, hold2⟩
    · rfl
    · have hij : i = j := by simpa [execRoleForB] using hr1
      rw [← hij] at hr2
      exact (noRole t2 pc2 hold2 hr2).symm
    · have hij : i = j := by simpa [execRoleForB] using hr2
      rw [← hij] at hr1
      exact noRole t1 pc1 hold1 hr1
    · exact h.uniq t1 t2 j pc1 pc2 hold1 hold2 hr1 hr2
  · intro t' j h'
    rcases h' with h' | h' <;>
      rcases get_set_cases _ _ _ _ _ ht h' with ⟨rfl, hbad⟩ | ⟨hne, hold⟩
    · cases hbad
    · exact h.cleanDone t' j (Or.inl hold)
    · cases hbad
    · exact h.cleanDone t' j (Or.inr hold)
  · intro t' j h'
    rcases h' with h' | h' <;>
      rcases get_set_cases _ _ _ _ _ ht h' with ⟨rfl, hbad⟩ | ⟨hne, hold⟩
    · cases hbad
    · exact h.execNotDone t' j (Or.inl hold)
    · cases hbad
    · exact h.execNotDone t' j (Or.inr hold)
  · intro t' j v h'
    rcases get_set_cases _ _ _ _ _ ht h' with ⟨rfl, heq⟩ | ⟨hne, hold⟩
    · cases heq
      refine ⟨h.cleanDone _ i (Or.inr hpc), rfl, ?_⟩
      exact (h.valSpec _ i (Or.inr (Or.inr hpc))).1
    · exact h.doneEval t' j v hold
  · intro t' j v h'
    rcases get_set_cases _ _ _ _ _ ht h' with ⟨rfl, hbad⟩ | ⟨hne, hold⟩
    · cases hbad
    · exact h.doneWval t' j v hold
  · intro t' j h'
    rcases h' with h' | h' | h' <;>
      rcases get_set_cases _ _ _ _ _ ht h' with ⟨rfl, heq⟩ | ⟨hne, hold⟩
    · cases heq
    · exact h.valSpec t' j (Or.inl hold)
    · cases heq
    · exact h.valSpec t' j (Or.inr (Or.inl hold))
    · cases heq
    · exact h.valSpec t' j (Or.inr (Or.inr hold))
  · intro t' j pc h' hw
    rcases get_set_cases _ _ _ _ _ ht h' with ⟨rfl, rfl⟩ | ⟨hne, hold⟩
    · simp [waiterForB] at hw
    rcases h.waiterReg t' j pc hold hw with hr | ⟨t'', v, hd⟩
    · rw [hreg] at hr
      cases hr
      exact Or.inr ⟨t, (s.recs i).val, List.getElem?_set_self ht⟩
    · refine Or.inr ⟨t'', v, get_set_preserve _ _ _ _ _ _ hpc hd ?_⟩
      intro h''
      cases h''
  · intro j
    show (s.recs j).dups = _
    rw [h.dupsEq j,
      countP_set_eq (waiterForB j) s.pcs t (Pc.doneE i (s.recs i).val) (Pc.cleanupCS i)
        hpc rfl]
  · exact h.fresh

/-- Preservation of the invariant by the wait step: `c.wg.Wait()` returns
because the WaitGroup was signalled, and the duplicate caller returns
`c.val`. -/
theorem inv_wait (fns : Nat → V × Option E) (s : SfState V E) (t i : Nat)
    (h : Inv fns s) (hpc : s.pcs[t]? = some (Pc.waitingFor i))
    (hg : (s.recs i).done = true) :
    Inv fns { s with pcs := s.pcs.set t (Pc.doneW i (s.recs i).val) } := by
  have ht : t < s.pcs.length := (List.getElem?_eq_some.mp hpc).1
  have hi : i < s.nextId := h.bound t i _ hpc (by simp [pcRec])
  refine ⟨?_, ?_, ?_, ?_, ?_, ?_, ?_, ?_, ?_, ?_, ?_, ?_, ?_, ?_, ?_, ?_⟩
  · intro t' hlock
    rcases h.lockA t' hlock with hcs | ⟨j, hcs⟩
    · refine Or.inl (get_set_preserve _ _ _ _ _ _ hpc hcs ?_)
      intro h''
      cases h''
    · refine Or.inr ⟨j, get_set_preserve _ _ _ _ _ _ hpc hcs ?_⟩
      intro h''
      cases h''
  · intro t' h'
    rcases h' with h' | ⟨j, h'⟩
    · rcases get_set_cases _ _ _ _ _ ht h' with ⟨rfl, hbad⟩ | ⟨hne, hold⟩
      · cases hbad
      · exact h.lockB t' (Or.inl hold)
    · rcases get_set_cases _ _ _ _ _ ht h' with ⟨rfl, hbad⟩ | ⟨hne, hold⟩
      · cases hbad
      · exact h.lockB t' (Or.inr ⟨j, hold⟩)
  · intro t' j pc h' hrec
    rcases get_set_cases _ _ _ _ _ ht h' with ⟨rfl, rfl⟩ | ⟨hne, hold⟩
    · simp only [pcRec, Option.some.injEq] at hrec
      show j < s.nextId
      omega
    · exact h.bound t' j pc hold hrec
  · exact h.boundReg
  · intro t' j pc h' hin
    rcases get_set_cases _ _ _ _ _ ht h' with ⟨rfl, rfl⟩ | ⟨hne, hold⟩
    · simp [inFlightForB] at hin
    · exact h.inflReg t' j pc hold hin
  · intro j hrj
    obtain ⟨t0, pc0, hget0, hin0⟩ := h.regInfl j hrj
    refine ⟨t0, pc0, get_set_preserve _ _ _ _ _ _ hpc hget0 ?_, hin0⟩
    rintro rfl
    simp [inFlightForB] at hin0
  · show s.counter = (s.pcs.set t (Pc.doneW i (s.recs i).val)).countP pastExecB
    rw [h.counterEq,
      countP_set_eq pastExecB s.pcs t (Pc.doneW i (s.recs i).val) (Pc.waitingFor i)
        hpc rfl]
  · intro t1 t2 j pc1 pc2 h1 h2 hr1 hr2
    rcases get_set_cases _ _ _ _ _ ht h1 with ⟨rfl, rfl⟩ | ⟨hne1, hold1⟩
    · simp [execRoleForB] at hr1
    rcases get_set_cases _ _ _ _ _ ht h2 with ⟨rfl, rfl⟩ | ⟨hne2, hold2⟩
    · simp [execRoleForB] at hr2
    exact h.uniq t1 t2 j pc1 pc2 hold1 hold2 hr1 hr2
  · intro t' j h'
    rcases h' with h' | h' <;>
      rcases get_set_cases _ _ _ _ _ ht h' with ⟨rfl, hbad⟩ | ⟨hne, hold⟩
    · cases hbad
    · exact h.cleanDone t' j (Or.inl hold)
    · cases hbad
    · exact h.cleanDone t' j (Or.inr hold)
  · intro t' j h'
    rcases h' with h' | h' <;>
      rcases get_set_cases _ _ _ _ _ ht h' with ⟨rfl, hbad⟩ | ⟨hne, hold⟩
    · cases hbad
    · exact h.execNotDone t' j (Or.inl hold)
    · cases hbad
    · exact h.execNotDone t' j (Or.inr hold)
  · intro t' j v h'
    rcases get_set_cases _ _ _ _ _ ht h' with ⟨rfl, hbad⟩ | ⟨hne, hold⟩
    · cases hbad
    · exact h.doneEval t' j v hold
  · intro t' j v h'
    rcases get_set_cases _ _ _ _ _ ht h' with ⟨rfl, heq⟩ | ⟨hne, hold⟩
    · cases heq
      exact ⟨hg, rfl⟩
    · exact h.doneWval t' j v hold
  · intro t' j h'
    rcases h' with h' | h' | h' <;>
      rcases get_set_cases _ _ _ _ _ ht h' with ⟨rfl, hbad⟩ | ⟨hne, hold⟩
    · cases hbad
    · exact h.valSpec t' j (Or.inl hold)
    · cases hbad
    · exact h.valSpec t' j (Or.inr (Or.inl hold))
    · cases hbad
    · exact h.valSpec t' j (Or.inr (Or.inr hold))
  · intro t' j pc h' hw
    rcases get_set_cases _ _ _ _ _ ht h' with ⟨rfl, rfl⟩ | ⟨hne, hold⟩
    · have hij : i = j := by simpa [waiterForB] using hw
      rcases h.waiterReg t' i _ hpc (by simp [waiterForB]) with hr | ⟨t'', v, hd⟩
      · exact Or.inl (hij ▸ hr)
      · refine Or.inr ⟨t'', v, ?_⟩
        rw [← hij]
        exact get_set_preserve _ _ _ _ _ _ hpc hd (by intro h''; cases h'')
    rcases h.waiterReg t' j pc hold hw with hr | ⟨t'', v, hd⟩
    · exact Or.inl hr
    · refine Or.inr ⟨t'', v, get_set_preserve _ _ _ _ _ _ hpc hd ?_⟩
      intro h''
      cases h''
  · intro j
    show (s.recs j).dups = _
    rw [h.dupsEq j,
      countP_set_eq (waiterForB j) s.pcs t (Pc.doneW i (s.recs i).val)
        (Pc.waitingFor i) hpc rfl]
  · exact h.fresh

/-- Every step of the machine preserves the invariant. -/
theorem inv_step (fns : Nat → V × Option E) (s : SfState V E) (t : Nat)
    (h : Inv fns s) : Inv fns (step fns s t) := by
  rcases hpc : s.pcs[t]? with _ | pc
  · simpa [step, hpc] using h
  cases pc with
  | entry =>
      by_cases hl : s.lock = none
      · simpa [step, hpc, hl] using inv_entryAcq fns s t h hpc hl
      · simpa [step, hpc, hl] using h
  | entryCS =>
      rcases hreg : s.reg with _ | i
      · simpa [step, hpc, hreg] using inv_entryCreate fns s t h hpc hreg
      · simpa [step, hpc, hreg] using inv_entryDup fns s t i h hpc hreg
  | execFor i =>
      simpa [step, hpc] using inv_exec fns s t i h hpc
  | signalFor i =>
      simpa [step, hpc] using inv_signal fns s t i h hpc
  | cleanupAcq i =>
      by_cases hl : s.lock = none
      · simpa [step, hpc, hl] using inv_cleanupAcq fns s t i h hpc hl
      · simpa [step, hpc, hl] using h
  | cleanupCS i =>
      simpa [step, hpc] using inv_cleanupCS fns s t i h hpc
  | doneE i v =>
      simpa [step, hpc] using h
  | waitingFor i =>
      by_cases hg : (s.recs i).done = true
      · simpa [step, hpc, hg] using inv_wait fns s t i h hpc hg
      · simpa [step, hpc, hg] using h
  | doneW i v =>
      simpa [step, hpc] using h

/-- Running any schedule from a state satisfying the invariant keeps it. -/
theorem inv_run (fns : Nat → V × Option E) (s : SfState V E) (sched : List Nat)
    (h : Inv fns s) : Inv fns (run fns s sched) := by
  induction sched generalizing s with
  | nil => exact h
  | cons t rest ih => exact ih (step fns s t) (inv_step fns s t h)

/-- Every state reachable from the initial state satisfies the invariant. -/
theorem inv_reach (fns : Nat → V × Option E) (n : Nat) (sched : List Nat) :
    Inv fns (run fns (init V E n) sched) :=
  inv_run fns (init V E n) sched (inv_init fns n)

/-- Reduction of `step` for a thread id with no thread. -/
theorem step_out (fns : Nat → V × Option E) (s : SfState V E) (t : Nat)
    (hpc : s.pcs[t]? = none) : step fns s t = s := by
  simp [step, hpc]

/-- Reduction of `step` at `entry` with the mutex free. -/
theorem step_entry_acq (fns : Nat → V × Option E) (s : SfState V E) (t : Nat)
    (hpc : s.pcs[t]? = some Pc.entry) (hl : s.lock = none) :
    step fns s t = { s with lock := some t, pcs := s.pcs.set t Pc.entryCS } := by
  simp [step, hpc, hl]

/-- Reduction of `step` at `entry` with the mutex held elsewhere. -/
theorem step_entry_blocked (fns : Nat → V × Option E) (s : SfState V E) (t : Nat)
    (hpc : s.pcs[t]? = some Pc.entry) (hl : ¬s.lock = none) :
    step fns s t = s := by
  simp [step, hpc, hl]

/-- Reduction of `step` at the registry check when a record exists. -/
theorem step_dup (fns : Nat → V × Option E) (s : SfState V E) (t i : Nat)
    (hpc : s.pcs[t]? = some Pc.entryCS) (hreg : s.reg = some i) :
    step fns s t = { s with
      recs := updRec s.recs i { s.recs i with dups := (s.recs i).dups + 1 },
      lock := none,
      pcs := s.pcs.set t (Pc.waitingFor i) } := by
  simp [step, hpc, hreg]

/-- Reduction of `step` at the registry check when no record exists. -/
theorem step_create (fns : Nat → V × Option E) (s : SfState V E) (t : Nat)
    (hpc : s.pcs[t]? = some Pc.entryCS) (hreg : s.reg = none) :
    step fns s t = { s with
      recs := updRec s.recs s.nextId ⟨none, none, 0, false⟩,
      nextId := s.nextId + 1,
      reg := some s.nextId,
      lock := none,
      pcs := s.pcs.set t (Pc.execFor s.nextId) } := by
  simp [step, hpc, hreg]

/-- Reduction of `step` at the operation invocation. -/
theorem step_exec (fns : Nat → V × Option E) (s : SfState V E) (t i : Nat)
    (hpc : s.pcs[t]? = some (Pc.execFor i)) :
    step fns s t = { s with
      counter := s.counter + 1,
      recs := updRec s.recs i
        { s.recs i with val := some (fns t).1, err := (fns t).2 },
      pcs := s.pcs.set t (Pc.signalFor i) } := by
  simp [step, hpc]

/-- Reduction of `step` at `c.wg.Done()`. -/
theorem step_signal (fns : Nat → V × Option E) (s : SfState V E) (t i : Nat)
    (hpc : s.pcs[t]? = some (Pc.signalFor i)) :
    step fns s t = { s with
      recs := updRec s.recs i { s.recs i with done := true },
      pcs := s.pcs.set t (Pc.cleanupAcq i) } := by
  simp [step, hpc]

/-- Reduction of `step` at the cleanup lock with the mutex free. -/
theorem step_cleanup_acq (fns : Nat → V × Option E) (s : SfState V E) (t i : Nat)
    (hpc : s.pcs[t]? = some (Pc.cleanupAcq i)) (hl : s.lock = none) :
    step fns s t = { s with lock := some t, pcs := s.pcs.set t (Pc.cleanupCS i) } := by
  simp [step, hpc, hl]

/-- Reduction of `step` at the cleanup lock with the mutex held elsewhere. -/
theorem step_cleanup_blocked (fns : Nat → V × Option E) (s : SfState V E) (t i : Nat)
    (hpc : s.pcs[t]? = some (Pc.cleanupAcq i)) (hl : ¬s.lock = none) :
    step fns s t = s := by
  simp [step, hpc, hl]

/-- Reduction of `step` at the registry delete: the entry is removed
unconditionally, whatever record it points at. -/
theorem step_delete (fns : Nat → V × Option E) (s : SfState V E) (t i : Nat)
    (hpc : s.pcs[t]? = some (Pc.cleanupCS i)) :
    step fns s t = { s with
      reg := none,
      lock := none,
      pcs := s.pcs.set t (Pc.doneE i (s.recs i).val) } := by
  simp [step, hpc]

/-- Reduction of `step` at a wait whose record has been signalled. -/
theorem step_wait_fire (fns : Nat → V × Option E) (s : SfState V E) (t i : Nat)
    (hpc : s.pcs[t]? = some (Pc.waitingFor i)) (hg : (s.recs i).done = true) :
    step fns s t = { s with pcs := s.pcs.set t (Pc.doneW i (s.recs i).val) } := by
  simp [step, hpc, hg]

/-- Reduction of `step` at a wait whose record is not yet signalled. -/
theorem step_wait_blocked (fns : Nat → V × Option E) (s : SfState V E) (t i : Nat)
    (hpc : s.pcs[t]? = some (Pc.waitingFor i)) (hg : ¬(s.recs i).done = true) :
    step fns s t = s := by
  simp [step, hpc, hg]

/-- Reduction of `step` for a returned executing caller. -/
theorem step_doneE (fns : Nat → V × Option E) (s : SfState V E) (t i : Nat)
    (v : Option V) (hpc : s.pcs[t]? = some (Pc.doneE i v)) : step fns s t = s := by
  simp [step, hpc]

/-- Reduction of `step` for a returned duplicate caller. -/
theorem step_doneW (fns : Nat → V × Option E) (s : SfState V E) (t i : Nat)
    (v : Option V) (hpc : s.pcs[t]? = some (Pc.doneW i v)) : step fns s t = s := by
  simp [step, hpc]

/-- One step never changes the number of threads. -/
theorem step_pcs_length (fns : Nat → V × Option E) (s : SfState V E) (t : Nat) :
    (step fns s t).pcs.length = s.pcs.length := by
  rcases hpc : s.pcs[t]? with _ | pc
  · simp [step, hpc]
  cases pc with
  | entry => by_cases hl : s.lock = none <;> simp [step, hpc, hl]
  | entryCS => rcases hreg : s.reg with _ | i <;> simp [step, hpc, hreg]
  | execFor i => simp [step, hpc]
  | signalFor i => simp [step, hpc]
  | cleanupAcq i => by_cases hl : s.lock = none <;> simp [step, hpc, hl]
  | cleanupCS i => simp [step, hpc]
  | doneE i v => simp [step, hpc]
  | waitingFor i => by_cases hg : (s.recs i).done = true <;> simp [step, hpc, hg]
  | doneW i v => simp [step, hpc]

/-- A run never changes the number of threads. -/
theorem run_pcs_length (fns : Nat → V × Option E) (s : SfState V E) (sched : List Nat) :
    (run fns s sched).pcs.length = s.pcs.length := by
  induction sched generalizing s with
  | nil => rfl
  | cons t rest ih => rw [run, List.foldl_cons, ← run, ih, step_pcs_length]

/-- An element read from a list on which a Boolean predicate holds
everywhere satisfies the predicate. -/
theorem all_get {α : Type} (l : List α) (p : α → Bool) (hall : l.all p = true)
    (t : Nat) (b : α) (hb : l[t]? = some b) : p b = true := by
  rw [List.all_eq_true] at hall
  exact hall b (List.getElem?_mem hb)

/-- Setting an element keeps `all` when the new element also satisfies the
predicate. -/
theorem all_set {α : Type} (l : List α) (p : α → Bool) (t : Nat) (a : α)
    (hall : l.all p = true) (ha : p a = true) : (l.set t a).all p = true := by
  rw [List.all_eq_true] at hall ⊢
  intro x hx
  rcases List.mem_or_eq_of_mem_set hx with h | h
  · exact hall x h
  · exact h ▸ ha

/-- Once every thread is past the registry check, one step keeps it so and
leaves the set of executing callers untouched: executing callers are minted
only by the registry check, so after the last caller of a generation has
arrived no further execution can ever start. -/
theorem step_noEntry (fns : Nat → V × Option E) (s : SfState V E) (t : Nat)
    (hall : s.pcs.all (fun pc => !entryishB pc) = true) :
    (step fns s t).pcs.all (fun pc => !entryishB pc) = true ∧
    (step fns s t).pcs.countP execPathB = s.pcs.countP execPathB := by
  rcases hpc : s.pcs[t]? with _ | pc
  · rw [step_out fns s t hpc]
    exact ⟨hall, rfl⟩
  have hpcb := all_get _ _ hall t pc hpc
  cases pc with
  | entry => simp [entryishB] at hpcb
  | entryCS => simp [entryishB] at hpcb
  | execFor i =>
      rw [step_exec fns s t i hpc]
      exact ⟨all_set _ _ _ _ hall rfl,
        countP_set_eq execPathB s.pcs t (Pc.signalFor i) (Pc.execFor i) hpc rfl⟩
  | signalFor i =>
      rw [step_signal fns s t i hpc]
      exact ⟨all_set _ _ _ _ hall rfl,
        countP_set_eq execPathB s.pcs t (Pc.cleanupAcq i) (Pc.signalFor i) hpc rfl⟩
  | cleanupAcq i =>
      by_cases hl : s.lock = none
      · rw [step_cleanup_acq fns s t i hpc hl]
        exact ⟨all_set _ _ _ _ hall rfl,
          countP_set_eq execPathB s.pcs t (Pc.cleanupCS i) (Pc.cleanupAcq i) hpc rfl⟩
      · rw [step_cleanup_blocked fns s t i hpc hl]
        exact ⟨hall, rfl⟩
  | cleanupCS i =>
      rw [step_delete fns s t i hpc]
      exact ⟨all_set _ _ _ _ hall rfl,
        countP_set_eq execPathB s.pcs t (Pc.doneE i (s.recs i).val)
          (Pc.cleanupCS i) hpc rfl⟩
  | doneE i v =>
      rw [step_doneE fns s t i v hpc]
      exact ⟨hall, rfl⟩
  | waitingFor i =>
      by_cases hg : (s.recs i).done = true
      · rw [step_wait_fire fns s t i hpc hg]
        exact ⟨all_set _ _ _ _ hall rfl,
          countP_set_eq execPathB s.pcs t (Pc.doneW i (s.recs i).val)
            (Pc.waitingFor i) hpc rfl⟩
      · rw [step_wait_blocked fns s t i hpc hg]
        exact ⟨hall, rfl⟩
  | doneW i v =>
      rw [step_doneW fns s t i v hpc]
      exact ⟨hall, rfl⟩

/-- Run form of `step_noEntry`. -/
theorem run_noEntry (fns : Nat → V × Option E) (s : SfState V E) (sched : List Nat)
    (hall : s.pcs.all (fun pc => !entryishB pc) = true) :
    (run fns s sched).pcs.all (fun pc => !entryishB pc) = true ∧
    (run fns s sched).pcs.countP execPathB = s.pcs.countP execPathB := by
  induction sched generalizing s with
  | nil => exact ⟨hall, rfl⟩
  | cons t rest ih =>
      obtain ⟨h1, h2⟩ := step_noEntry fns s t hall
      obtain ⟨h3, h4⟩ := ih (step fns s t) h1
      exact ⟨h3, by rw [run, List.foldl_cons, ← run, h4, h2]⟩

/-- A thread on the executing path stays on it through one step. -/
theorem step_execPath_thread (fns : Nat → V × Option E) (s : SfState V E)
    (t0 t : Nat) (pc : Pc V) (hpc0 : s.pcs[t0]? = some pc)
    (hp : execPathB pc = true) :
    ∃ pc', (step fns s t).pcs[t0]? = some pc' ∧ execPathB pc' = true := by
  by_cases h0 : t0 = t
  · subst h0
    have ht0 : t0 < s.pcs.length := (List.getElem?_eq_some.mp hpc0).1
    cases pc with
    | entry => cases hp
    | entryCS => cases hp
    | execFor i =>
        rw [step_exec fns s t0 i hpc0]
        exact ⟨Pc.signalFor i, List.getElem?_set_self ht0, rfl⟩
    | signalFor i =>
        rw [step_signal fns s t0 i hpc0]
        exact ⟨Pc.cleanupAcq i, List.getElem?_set_self ht0, rfl⟩
    | cleanupAcq i =>
        by_cases hl : s.lock = none
        · rw [step_cleanup_acq fns s t0 i hpc0 hl]
          exact ⟨Pc.cleanupCS i, List.getElem?_set_self ht0, rfl⟩
        · rw [step_cleanup_blocked fns s t0 i hpc0 hl]
          exact ⟨Pc.cleanupAcq i, hpc0, rfl⟩
    | cleanupCS i =>
        rw [step_delete fns s t0 i hpc0]
        exact ⟨Pc.doneE i (s.recs i).val, List.getElem?_set_self ht0, rfl⟩
    | doneE i v =>
        rw [step_doneE fns s t0 i v hpc0]
        exact ⟨Pc.doneE i v, hpc0, rfl⟩
    | waitingFor i => cases hp
    | doneW i v => cases hp
  · refine ⟨pc, ?_, hp⟩
    have hset : ∀ a : Pc V, (s.pcs.set t a)[t0]? = some pc := by
      intro a
      rw [List.getElem?_set_ne (Ne.symm h0)]
      exact hpc0
    rcases hpc : s.pcs[t]? with _ | pct
    · rw [step_out fns s t hpc]
      exact hpc0
    cases pct with
    | entry =>
        by_cases hl : s.lock = none
        · rw [step_entry_acq fns s t hpc hl]
          exact hset _
        · rw [step_entry_blocked fns s t hpc hl]
          exact hpc0
    | entryCS =>
        rcases hreg : s.reg with _ | i
        · rw [step_create fns s t hpc hreg]
          exact hset _
        · rw [step_dup fns s t i hpc hreg]
          exact hset _
    | execFor i =>
        rw [step_exec fns s t i hpc]
        exact hset _
    | signalFor i =>
        rw [step_signal fns s t i hpc]
        exact hset _
    | cleanupAcq i =>
        by_cases hl : s.lock = none
        · rw [step_cleanup_acq fns s t i hpc hl]
          exact hset _
        · rw [step_cleanup_blocked fns s t i hpc hl]
          exact hpc0
    | cleanupCS i =>
        rw [step_delete fns s t i hpc]
        exact hset _
    | doneE i v =>
        rw [step_doneE fns s t i v hpc]
        exact hpc0
    | waitingFor i =>
        by_cases hg : (s.recs i).done = true
        · rw [step_wait_fire fns s t i hpc hg]
          exact hset _
        · rw [step_wait_blocked fns s t i hpc hg]
          exact hpc0
    | doneW i v =>
        rw [step_doneW fns s t i v hpc]
        exact hpc0

/-- A thread on the executing path stays on it through any schedule. -/
theorem run_execPath_thread (fns : Nat → V × Option E) (s : SfState V E)
    (sched : List Nat) (t0 : Nat) (pc : Pc V) (hpc0 : s.pcs[t0]? = some pc)
    (hp : execPathB pc = true) :
    ∃ pc', (run fns s sched).pcs[t0]? = some pc' ∧ execPathB pc' = true := by
  induction sched generalizing s pc with
  | nil => exact ⟨pc, hpc0, hp⟩
  | cons t rest ih =>
      obtain ⟨pc', h1, h2⟩ := step_execPath_thread fns s t0 t pc hpc0 hp
      exact ih (step fns s t) pc' h1 h2

/-- Two states with the same lock, registry, allocation bound, program
counters, counter and records-up-to-`dups` have the same erasure. -/
theorem eraseDups_ext (a b : SfState V E)
    (h1 : a.lock = b.lock) (h2 : a.reg = b.reg) (h3 : a.nextId = b.nextId)
    (h4 : a.pcs = b.pcs) (h5 : a.counter = b.counter)
    (h6 : ∀ j, (a.recs j).val = (b.recs j).val)
    (h7 : ∀ j, (a.recs j).err = (b.recs j).err)
    (h8 : ∀ j, (a.recs j).done = (b.recs j).done) :
    eraseDups a = eraseDups b := by
  have hrecs : (fun j => ({ a.recs j with dups := 0 } : SfCall V E))
      = fun j => { b.recs j with dups := 0 } := by
    funext j
    show SfCall.mk _ _ 0 _ = SfCall.mk _ _ 0 _
    rw [h6 j, h7 j, h8 j]
  show SfState.mk _ _ _ _ _ _ = SfState.mk _ _ _ _ _ _
  rw [h1, h2, h3, h4, h5, hrecs]

/-- One step, observed modulo `dups`, is determined by the state modulo
`dups`: the machine never branches on the `dups` field. -/
theorem step_dupsCongr (fns : Nat → V × Option E) (s s' : SfState V E) (t : Nat)
    (h : eraseDups s = eraseDups s') :
    eraseDups (step fns s t) = eraseDups (step fns s' t) := by
  have hpcs0 := congrArg SfState.pcs h
  have hpcs : s.pcs = s'.pcs := hpcs0
  have hlock0 := congrArg SfState.lock h
  have hlock : s.lock = s'.lock := hlock0
  have hreg0 := congrArg SfState.reg h
  have hreg : s.reg = s'.reg := hreg0
  have hnext0 := congrArg SfState.nextId h
  have hnext : s.nextId = s'.nextId := hnext0
  have hcounter0 := congrArg SfState.counter h
  have hcounter : s.counter = s'.counter := hcounter0
  have hval : ∀ j, (s.recs j).val = (s'.recs j).val := by
    intro j
    have h0 := congrArg SfCall.val (congrFun (congrArg SfState.recs h) j)
    exact h0
  have herrf : ∀ j, (s.recs j).err = (s'.recs j).err := by
    intro j
    have h0 := congrArg SfCall.err (congrFun (congrArg SfState.recs h) j)
    exact h0
  have hdone : ∀ j, (s.recs j).done = (s'.recs j).done := by
    intro j
    have h0 := congrArg SfCall.done (congrFun (congrArg SfState.recs h) j)
    exact h0
  rcases hpc : s.pcs[t]? with _ | pc
  · rw [step_out fns s t hpc, step_out fns s' t (hpcs ▸ hpc)]
    exact h
  have hpc' : s'.pcs[t]? = some pc := hpcs ▸ hpc
  cases pc with
  | entry =>
      by_cases hl : s.lock = none
      · rw [step_entry_acq fns s t hpc hl, step_entry_acq fns s' t hpc' (hlock ▸ hl)]
        exact eraseDups_ext _ _ rfl hreg hnext (by rw [hpcs]) hcounter hval herrf hdone
      · rw [step_entry_blocked fns s t hpc hl,
          step_entry_blocked fns s' t hpc' (hlock ▸ hl)]
        exact h
  | entryCS =>
      rcases hr : s.reg with _ | i
      · rw [step_create fns s t hpc hr, step_create fns s' t hpc' (hreg ▸ hr)]
        refine eraseDups_ext _ _ rfl (by rw [hnext]) (by rw [hnext])
          (by rw [hpcs, hnext]) hcounter ?_ ?_ ?_
        · intro j
          show (updRec s.recs s.nextId ⟨none, none, 0, false⟩ j).val
            = (updRec s'.recs s'.nextId ⟨none, none, 0, false⟩ j).val
          by_cases hj : j = s.nextId
          · rw [hj, hnext, updRec_same, updRec_same]
          · rw [updRec_other _ _ _ _ hj, updRec_other _ _ _ _ (hnext ▸ hj)]
            exact hval j
        · intro j
          show (updRec s.recs s.nextId ⟨none, none, 0, false⟩ j).err
            = (updRec s'.recs s'.nextId ⟨none, none, 0, false⟩ j).err
          by_cases hj : j = s.nextId
          · rw [hj, hnext, updRec_same, updRec_same]
          · rw [updRec_other _ _ _ _ hj, updRec_other _ _ _ _ (hnext ▸ hj)]
            exact herrf j
        · intro j
          show (updRec s.recs s.nextId ⟨none, none, 0, false⟩ j).done
            = (updRec s'.recs s'.nextId ⟨none, none, 0, false⟩ j).done
          by_cases hj : j = s.nextId
          · rw [hj, hnext, updRec_same, updRec_same]
          · rw [updRec_other _ _ _ _ hj, updRec_other _ _ _ _ (hnext ▸ hj)]
            exact hdone j
      · rw [step_dup fns s t i hpc hr, step_dup fns s' t i hpc' (hreg ▸ hr)]
        refine eraseDups_ext _ _ rfl hreg hnext (by rw [hpcs]) hcounter ?_ ?_ ?_
        · intro j
          show (updRec s.recs i { s.recs i with dups := (s.recs i).dups + 1 } j).val
            = (updRec s'.recs i { s'.recs i with dups := (s'.recs i).dups + 1 } j).val
          by_cases hj : j = i
          · rw [hj, updRec_same, updRec_same]
            exact hval i
          · rw [updRec_other _ _ _ _ hj, updRec_other _ _ _ _ hj]
            exact hval j
        · intro j
          show (updRec s.recs i { s.recs i with dups := (s.recs i).dups + 1 } j).err
            = (updRec s'.recs i { s'.recs i with dups := (s'.recs i).dups + 1 } j).err
          by_cases hj : j = i
          · rw [hj, updRec_same, updRec_same]
            exact herrf i
          · rw [updRec_other _ _ _ _ hj, updRec_other _ _ _ _ hj]
            exact herrf j
        · intro j
          show (updRec s.recs i { s.recs i with dups := (s.recs i).dups + 1 } j).done
            = (updRec s'.recs i { s'.recs i with dups := (s'.recs i).dups + 1 } j).done
          by_cases hj : j = i
          · rw [hj, updRec_same, updRec_same]
            exact hdone i
          · rw [updRec_other _ _ _ _ hj, updRec_other _ _ _ _ hj]
            exact hdone j
  | execFor i =>
      rw [step_exec fns s t i hpc, step_exec fns s' t i hpc']
      refine eraseDups_ext _ _ hlock hreg hnext (by rw [hpcs]) (by rw [hcounter])
        ?_ ?_ ?_
      · intro j
        show (updRec s.recs i
            { s.recs i with val := some (fns t).1, err := (fns t).2 } j).val
          = (updRec s'.recs i
            { s'.recs i with val := some (fns t).1, err := (fns t).2 } j).val
        by_cases hj : j = i
        · rw [hj, updRec_same, updRec_same]
        · rw [updRec_other _ _ _ _ hj, updRec_other _ _ _ _ hj]
          exact hval j
      · intro j
        show (updRec s.recs i
            { s.recs i with val := some (fns t).1, err := (fns t).2 } j).err
          = (updRec s'.recs i
            { s'.recs i with val := some (fns t).1, err := (fns t).2 } j).err
        by_cases hj : j = i
        · rw [hj, updRec_same, updRec_same]
        · rw [updRec_other _ _ _ _ hj, updRec_other _ _ _ _ hj]
          exact herrf j
      · intro j
        show (updRec s.recs i
            { s.recs i with val := some (fns t).1, err := (fns t).2 } j).done
          = (updRec s'.recs i
            { s'.recs i with val := some (fns t).1, err := (fns t).2 } j).done
        by_cases hj : j = i
        · rw [hj, updRec_same, updRec_same]
          exact hdone i
        · rw [updRec_other _ _ _ _ hj, updRec_other _ _ _ _ hj]
          exact hdone j
  | signalFor i =>
      rw [step_signal fns s t i hpc, step_signal fns s' t i hpc']
      refine eraseDups_ext _ _ hlock hreg hnext (by rw [hpcs]) hcounter ?_ ?_ ?_
      · intro j
        show (updRec s.recs i { s.recs i with done := true } j).val
          = (updRec s'.recs i { s'.recs i with done := true } j).val
        by_cases hj : j = i
        · rw [hj, updRec_same, updRec_same]
          exact hval i
        · rw [updRec_other _ _ _ _ hj, updRec_other _ _ _ _ hj]
          exact hval j
      · intro j
        show (updRec s.recs i { s.recs i with done := true } j).err
          = (updRec s'.recs i { s'.recs i with done := true } j).err
        by_cases hj : j = i
        · rw [hj, updRec_same, updRec_same]
          exact herrf i
        · rw [updRec_other _ _ _ _ hj, updRec_other _ _ _ _ hj]
          exact herrf j
      · intro j
        show (updRec s.recs i { s.recs i with done := true } j).done
          = (updRec s'.recs i { s'.recs i with done := true } j).done
        by_cases hj : j = i
        · rw [hj, updRec_same, updRec_same]
        · rw [updRec_other _ _ _ _ hj, updRec_other _ _ _ _ hj]
          exact hdone j
  | cleanupAcq i =>
      by_cases hl : s.lock = none
      · rw [step_cleanup_acq fns s t i hpc hl,
          step_cleanup_acq fns s' t i hpc' (hlock ▸ hl)]
        exact eraseDups_ext _ _ rfl hreg hnext (by rw [hpcs]) hcounter hval herrf hdone
      · rw [step_cleanup_blocked fns s t i hpc hl,
          step_cleanup_blocked fns s' t i hpc' (hlock ▸ hl)]
        exact h
  | cleanupCS i =>
      rw [step_delete fns s t i hpc, step_delete fns s' t i hpc']
      exact eraseDups_ext _ _ rfl rfl hnext (by rw [hpcs, hval i]) hcounter
        hval herrf hdone
  | doneE i v =>
      rw [step_doneE fns s t i v hpc, step_doneE fns s' t i v hpc']
      exact h
  | waitingFor i =>
      by_cases hg : (s.recs i).done = true
      · rw [step_wait_fire fns s t i hpc hg,
          step_wait_fire fns s' t i hpc' (hdone i ▸ hg)]
        exact eraseDups_ext _ _ hlock hreg hnext (by rw [hpcs, hval i]) hcounter
          hval herrf hdone
      · rw [step_wait_blocked fns s t i hpc hg,
          step_wait_blocked fns s' t i hpc' (hdone i ▸ hg)]
        exact h
  | doneW i v =>
      rw [step_doneW fns s t i v hpc, step_doneW fns s' t i v hpc']
      exact h

/-- A whole run, observed modulo `dups`, is determined by the initial
state modulo `dups`. -/
theorem run_dupsCongr (fns : Nat → V × Option E) (s s' : SfState V E)
    (sched : List Nat) (h : eraseDups s = eraseDups s') :
    eraseDups (run fns s sched) = eraseDups (run fns s' sched) := by
  induction sched generalizing s s' with
  | nil => exact h
  | cons t rest ih => exact ih (step fns s t) (step fns s' t) (step_dupsCongr fns s s' t h)

/-- Running a concatenated schedule runs the pieces in order. -/
theorem run_append (fns : Nat → V × Option E) (s : SfState V E) (l₁ l₂ : List Nat) :
    run fns s (l₁ ++ l₂) = run fns (run fns s l₁) l₂ :=
  List.foldl_append (step fns) s l₁ l₂

/-- Weakening of `List.all` along a pointwise implication. -/
theorem all_imp {α : Type} (l : List α) (p q : α → Bool) (h : l.all p = true)
    (himp : ∀ a, p a = true → q a = true) : l.all q = true := by
  rw [List.all_eq_true] at h ⊢
  intro a ha
  exact himp a (h a ha)

/-- An in-flight executing caller is on the executing path. -/
theorem inFlight_execPath (i : Nat) (pc : Pc V) (h : inFlightForB i pc = true) :
    execPathB pc = true := by
  cases pc <;> simp_all [inFlightForB, execPathB]

/-- A program counter on the executing path either has returned or is the
in-flight executing caller of its record. -/
theorem execPath_cases (pc : Pc V) (h : execPathB pc = true) :
    (∃ i v, pc = Pc.doneE i v) ∨ ∃ i, inFlightForB i pc = true := by
  cases pc <;> simp_all [execPathB, inFlightForB]

/-- On finished program counters, being past the invocation and being on
the executing path coincide. -/
theorem finished_pastExec (pc : Pc V) (h : finishedB pc = true) :
    pastExecB pc = execPathB pc := by
  cases pc <;> simp_all [finishedB, pastExecB, execPathB]

/-- A mid-generation program counter is past the registry check. -/
theorem midOk_notEntryish (pc : Pc V) (h : midOkB pc = true) :
    (!entryishB pc) = true := by
  cases pc <;> simp_all [midOkB, entryishB]

/-- A mid-generation program counter is not a finished executing caller. -/
theorem midOk_notDoneE (pc : Pc V) (h : midOkB pc = true) (i : Nat) (v : Option V) :
    pc ≠ Pc.doneE i v := by
  cases pc <;> simp_all [midOkB, isDoneEB]

/-- Go map lookup after a delete of the same key misses. -/
theorem lookupKey_eraseKey_self (k : String) (m : List (String × SfCall V E)) :
    lookupKey k (eraseKey k m) = none := by
  induction m with
  | nil => rfl
  | cons p rest ih =>
      by_cases hp : p.1 = k
      · simpa [eraseKey, hp] using ih
      · simpa [eraseKey, lookupKey, hp] using ih

/-- Go map lookup after an insert of the same key finds the new record. -/
theorem lookupKey_insertKey_self (k : String) (c : SfCall V E)
    (m : List (String × SfCall V E)) : lookupKey k (insertKey k c m) = some c := by
  simp [insertKey, lookupKey]

/-- Deleting a key twice is the same as deleting it once. -/
theorem eraseKey_idem (k : String) (m : List (String × SfCall V E)) :
    eraseKey k (eraseKey k m) = eraseKey k m := by
  simp [eraseKey, List.filter_filter]

/-- Deleting a key right after overwriting it is deleting it from the
original map. -/
theorem eraseKey_insertKey (k : String) (c : SfCall V E)
    (m : List (String × SfCall V E)) :
    eraseKey k (insertKey k c m) = eraseKey k m := by
  show eraseKey k ((k, c) :: eraseKey k m) = eraseKey k m
  simp only [eraseKey, List.filter_cons]
  rw [show ((k, c).1 != k) = false by simp]
  exact eraseKey_idem k m

/-- C7: after every complete generation has finished (every thread's call
has returned, whatever value-and-error results the operations produced,
errors included), the registry contains no entry for the key. -/
theorem C7_registry_empty_after_generation (V E : Type) (fns : Nat → V × Option E)
    (n : Nat) (sched : List Nat)
    (hfin : (run fns (init V E n) sched).pcs.all finishedB = true) :
    (run fns (init V E n) sched).reg = none := by
  have hInv := inv_reach fns n sched
  rcases hreg : (run fns (init V E n) sched).reg with _ | i
  · rfl
  · obtain ⟨t, pc, hget, hin⟩ := hInv.regInfl i hreg
    have hfinpc := all_get _ _ hfin t pc hget
    cases pc <;> simp_all [inFlightForB, finishedB]

/-- C7 witness: three concurrent callers for the key, whose operation
returns the error "boom"; after all three have returned, the registry
entry is gone. -/
theorem C7_registry_empty_witness :
    (run fns0 (init Nat String 3) (schedA ++ schedB)).pcs.all finishedB = true ∧
    (run fns0 (init Nat String 3) (schedA ++ schedB)).reg = none :=
  ⟨by decide, C7_registry_empty_after_generation Nat String fns0 3 (schedA ++ schedB)
    (by decide)⟩

/-- C8: in every reachable state, a thread that is invoking the operation,
signalling its completion, or blocked waiting on a record's completion
does not hold the registry lock: the lock is released before `fn()` runs
and before any `wg.Wait()` begins. -/
theorem C8_lock_not_held_during_exec_or_wait (V E : Type)
    (fns : Nat → V × Option E) (n : Nat) (sched : List Nat) (t i : Nat)
    (h : (run fns (init V E n) sched).pcs[t]? = some (Pc.execFor i) ∨
      (run fns (init V E n) sched).pcs[t]? = some (Pc.signalFor i) ∨
      (run fns (init V E n) sched).pcs[t]? = some (Pc.waitingFor i)) :
    (run fns (init V E n) sched).lock ≠ some t := by
  intro heq
  have hInv := inv_reach fns n sched
  rcases hInv.lockA t heq with hcs | ⟨j, hcs⟩ <;>
    rcases h with h | h | h <;>
    rw [h] at hcs <;>
    exact absurd hcs (by simp)

/-- C8 witness: in the concrete run, right after thread 0 has registered
its record and released the lock, it is about to invoke the operation and
the lock is not held by it. -/
theorem C8_lock_not_held_witness :
    (run fns0 (init Nat String 3) [0, 0]).pcs[0]? = some (Pc.execFor 0) ∧
    (run fns0 (init Nat String 3) [0, 0]).lock ≠ some 0 :=
  ⟨by decide, C8_lock_not_held_during_exec_or_wait Nat String fns0 3 [0, 0] 0 0
    (Or.inl (by decide))⟩

/-- C6: a duplicate caller that returned did so only after the record's
completion signal had fired, returned exactly the record's stored value,
and at no point of the run was it about to invoke its own operation. -/
theorem C6_duplicate_never_invokes (V E : Type) (fns : Nat → V × Option E)
    (n : Nat) (sched : List Nat) (t i : Nat) (v : Option V)
    (hw : (run fns (init V E n) sched).pcs[t]? = some (Pc.doneW i v)) :
    ((run fns (init V E n) sched).recs i).done = true ∧
    ((run fns (init V E n) sched).recs i).val = v ∧
    ∀ l₁ l₂, sched = l₁ ++ l₂ → ∀ j : Nat,
      (run fns (init V E n) l₁).pcs[t]? ≠ some (Pc.execFor j) := by
  have hInv := inv_reach fns n sched
  obtain ⟨hd, hv⟩ := hInv.doneWval t i v hw
  refine ⟨hd, hv, ?_⟩
  intro l₁ l₂ hsplit j hexec
  obtain ⟨pc', hget', hp'⟩ :=
    run_execPath_thread fns (run fns (init V E n) l₁) l₂ t (Pc.execFor j) hexec
      (by simp [execPathB])
  rw [← run_append, ← hsplit, hw] at hget'
  cases hget'
  simp [execPathB] at hp'

/-- C6 witness: in the concrete run, thread 1 joined thread 0's record as
a duplicate and returned the stored value 42 after the signal, never
having been at the invocation statement. -/
theorem C6_duplicate_never_invokes_witness :
    (run fns0 (init Nat String 3) (schedA ++ schedB)).pcs[1]?
      = some (Pc.doneW 0 (some 42)) ∧
    (((run fns0 (init Nat String 3) (schedA ++ schedB)).recs 0).done = true ∧
     ((run fns0 (init Nat String 3) (schedA ++ schedB)).recs 0).val = some 42 ∧
     ∀ l₁ l₂, schedA ++ schedB = l₁ ++ l₂ → ∀ j : Nat,
       (run fns0 (init Nat String 3) l₁).pcs[1]? ≠ some (Pc.execFor j)) :=
  ⟨by decide, C6_duplicate_never_invokes Nat String fns0 3 (schedA ++ schedB) 1 0
    (some 42) (by decide)⟩

/-- C1: one invocation per generation.  If every one of the n ≥ 1 callers
has passed the registry check before any execution for the key has
completed its cleanup (so all n calls overlap: one generation), then after
all n calls have returned the instrumented invocation counter is exactly
1, regardless of n and of the schedule. -/
theorem C1_exactly_once_per_generation (V E : Type) (fns : Nat → V × Option E)
    (n : Nat) (hn : 1 ≤ n) (l₁ l₂ : List Nat)
    (hmid : (run fns (init V E n) l₁).pcs.all midOkB = true)
    (hfin : (run fns (init V E n) (l₁ ++ l₂)).pcs.all finishedB = true) :
    (run fns (init V E n) (l₁ ++ l₂)).counter = 1 := by
  have hlen1 : (run fns (init V E n) l₁).pcs.length = n := by
    rw [run_pcs_length]
    simp [init]
  have hzero : (0 : Nat) < (run fns (init V E n) l₁).pcs.length := by omega
  obtain ⟨pc0, hpc0⟩ : ∃ pc0, (run fns (init V E n) l₁).pcs[0]? = some pc0 := by
    rw [List.getElem?_eq_getElem hzero]
    exact ⟨_, rfl⟩
  have hmid0 : midOkB pc0 = true := all_get _ _ hmid 0 pc0 hpc0
  have hregsome : ∃ i, (run fns (init V E n) l₁).reg = some i := by
    have hInv1 := inv_reach fns n l₁ (V := V) (E := E)
    cases pc0 with
    | entry => simp [midOkB, entryishB] at hmid0
    | entryCS => simp [midOkB, entryishB] at hmid0
    | execFor i => exact ⟨i, hInv1.inflReg 0 i _ hpc0 (by simp [inFlightForB])⟩
    | signalFor i => exact ⟨i, hInv1.inflReg 0 i _ hpc0 (by simp [inFlightForB])⟩
    | cleanupAcq i => exact ⟨i, hInv1.inflReg 0 i _ hpc0 (by simp [inFlightForB])⟩
    | cleanupCS i => exact ⟨i, hInv1.inflReg 0 i _ hpc0 (by simp [inFlightForB])⟩
    | doneE i v => simp [midOkB, isDoneEB] at hmid0
    | waitingFor i =>
        rcases hInv1.waiterReg 0 i _ hpc0 (by simp [waiterForB]) with hr | ⟨t'', w, hd⟩
        · exact ⟨i, hr⟩
        · have := all_get _ _ hmid t'' _ hd
          simp [midOkB, isDoneEB] at this
    | doneW i v =>
        rcases hInv1.waiterReg 0 i _ hpc0 (by simp [waiterForB]) with hr | ⟨t'', w, hd⟩
        · exact ⟨i, hr⟩
        · have := all_get _ _ hmid t'' _ hd
          simp [midOkB, isDoneEB] at this
  obtain ⟨i, hreg⟩ := hregsome
  have hcount1 : (run fns (init V E n) l₁).pcs.countP execPathB = 1 := by
    have hInv1 := inv_reach fns n l₁ (V := V) (E := E)
    obtain ⟨t0, pc0', hget0, hin0⟩ := hInv1.regInfl i hreg
    refine countP_eq_one_of execPathB _ t0 pc0' hget0 (inFlight_execPath i pc0' hin0) ?_
    intro t' pc' hget' hp'
    rcases execPath_cases pc' hp' with ⟨j, w, rfl⟩ | ⟨j, hin'⟩
    · have := all_get _ _ hmid t' _ hget'
      simp [midOkB, isDoneEB] at this
    · have hj : (run fns (init V E n) l₁).reg = some j :=
        hInv1.inflReg t' j pc' hget' hin'
      rw [hreg] at hj
      cases hj
      exact hInv1.uniq t' t0 i pc' pc0' hget' hget0
        (inFlight_execRole _ _ hin') (inFlight_execRole _ _ hin0)
  have hall1 : (run fns (init V E n) l₁).pcs.all (fun pc => !entryishB pc) = true :=
    all_imp _ _ _ hmid midOk_notEntryish
  obtain ⟨hall2, hcount2⟩ := run_noEntry fns (run fns (init V E n) l₁) l₂ hall1
  have hInvF := inv_reach fns n (l₁ ++ l₂) (V := V) (E := E)
  rw [hInvF.counterEq]
  have hcongr : (run fns (init V E n) (l₁ ++ l₂)).pcs.countP pastExecB
      = (run fns (init V E n) (l₁ ++ l₂)).pcs.countP execPathB := by
    refine countP_congr_fun _ _ _ ?_
    intro pc hmem
    rw [List.all_eq_true] at hfin
    exact finished_pastExec pc (hfin pc hmem)
  rw [hcongr, run_append, hcount2, hcount1]

/-- C1 witness: three concurrent callers, one generation (all three pass
the registry check before any cleanup), every caller returns, and the
invocation counter is exactly 1. -/
theorem C1_exactly_once_witness :
    (1 ≤ 3) ∧
    (run fns0 (init Nat String 3) schedA).pcs.all midOkB = true ∧
    (run fns0 (init Nat String 3) (schedA ++ schedB)).pcs.all finishedB = true ∧
    (run fns0 (init Nat String 3) (schedA ++ schedB)).counter = 1 :=
  ⟨by decide, by decide, by decide,
    C1_exactly_once_per_generation Nat String fns0 3 (by decide) schedA schedB
      (by decide) (by decide)⟩

/-- C2 counterexample: the engine discards the operation's error.  On a
fresh group, a call whose operation returns (5, error "boom") produces
exactly the same observable result — outcome, registry and invocation
flag — as one whose operation returns (5, nil): the non-nil error is not
handed back to the caller.  The outcome is just the value 5. -/
theorem C2_error_swallowed_counterexample :
    doSeq (newSingleflightModel Nat String) "k" (FnRes.ok 5 (some "boom"))
      = doSeq (newSingleflightModel Nat String) "k" (FnRes.ok 5 none) ∧
    (doSeq (newSingleflightModel Nat String) "k" (FnRes.ok 5 (some "boom"))).out
      = DoOutcome.returned (some 5) := by
  constructor
  · decide
  · decide

/-- C2 amended: every caller that returned from a generation returned the
identical value — the record's stored `val`, which is exactly the value
the sole invocation produced; but the error is not propagated: it is
stored in the record's `err` field and never read, `Do` returns only
`c.val`, and the whole observable result of `Do` is the same whether the
operation's error was nil or not. -/
theorem C2_value_shared_error_discarded (V E : Type) (fns : Nat → V × Option E)
    (n : Nat) :
    (∀ (sched : List Nat) (t i : Nat) (v : Option V),
      ((run fns (init V E n) sched).pcs[t]? = some (Pc.doneE i v) ∨
        (run fns (init V E n) sched).pcs[t]? = some (Pc.doneW i v)) →
      v = ((run fns (init V E n) sched).recs i).val) ∧
    (∀ (sched : List Nat) (t i : Nat) (v : Option V),
      (run fns (init V E n) sched).pcs[t]? = some (Pc.doneE i v) →
      v = some (fns t).1) ∧
    (∀ (k : String) (m : List (String × SfCall V E)) (v : V) (e e' : Option E),
      doSeq (some m) k (FnRes.ok v e) = doSeq (some m) k (FnRes.ok v e')) := by
  refine ⟨?_, ?_, ?_⟩
  · intro sched t i v h
    have hInv := inv_reach fns n sched
    rcases h with h | h
    · exact (hInv.doneEval t i v h).2.1.symm
    · exact (hInv.doneWval t i v h).2.symm
  · intro sched t i v h
    exact ((inv_reach fns n sched).doneEval t i v h).2.2
  · intro k m v e e'
    rcases hm : lookupKey k m with _ | c
    · simp [doSeq, hm, eraseKey_insertKey]
    · simp [doSeq, hm]

/-- C2 witness: in the concrete run the executing caller and a duplicate
both returned 42, the record's stored value and the value the single
invocation produced. -/
theorem C2_value_shared_witness :
    ((run fns0 (init Nat String 3) (schedA ++ schedB)).pcs[0]?
      = some (Pc.doneE 0 (some 42))) ∧
    (some 42
      = ((run fns0 (init Nat String 3) (schedA ++ schedB)).recs 0).val) ∧
    (some 42 = some ((fns0 0).1)) :=
  ⟨by decide,
    (C2_value_shared_error_discarded Nat String fns0 3).1 (schedA ++ schedB) 0 0
      (some 42) (Or.inl (by decide)),
    (C2_value_shared_error_discarded Nat String fns0 3).2.1 (schedA ++ schedB) 0 0
      (some 42) (by decide)⟩

/-- C3 counterexample: a panic of the operation is not caught.  On a
fresh group, a panicking operation makes `Do` itself panic (no error
outcome), the registry entry for the key is left behind with its
completion signal never fired, and a subsequent call for the key joins
that stale record and blocks forever instead of executing normally. -/
theorem C3_panic_uncaught_counterexample :
    (doSeq (newSingleflightModel Nat String) "k" FnRes.panics).out
      = DoOutcome.panicked ∧
    lookupKey "k" ((doSeq (newSingleflightModel Nat String) "k"
        FnRes.panics).calls.getD [])
      = some ⟨none, none, 0, false⟩ ∧
    (doSeq ((doSeq (newSingleflightModel Nat String) "k" FnRes.panics).calls)
        "k" (FnRes.ok 5 none)).out = DoOutcome.blockedOnWait := by
  refine ⟨?_, ?_, ?_⟩ <;> decide

/-- C3 amended: if the operation panics during `Do(k, fn)`, the panic
propagates out of `Do` uncaught, the operation having been invoked; the
registry entry for `k` is not deleted and still holds the never-signalled
record; and a subsequent call for `k` joins that stale record and blocks
on its completion signal without invoking its own operation, instead of
executing normally. -/
theorem C3_panic_poisons_key (V E : Type) (k : String)
    (m : List (String × SfCall V E)) (hm : lookupKey k m = none)
    (v : V) (e : Option E) :
    (doSeq (some m) k FnRes.panics).out = DoOutcome.panicked ∧
    (doSeq (some m) k FnRes.panics).invoked = true ∧
    lookupKey k ((doSeq (some m) k FnRes.panics).calls.getD [])
      = some ⟨none, none, 0, false⟩ ∧
    (doSeq ((doSeq (some m) k FnRes.panics).calls) k (FnRes.ok v e)).out
      = DoOutcome.blockedOnWait ∧
    (doSeq ((doSeq (some m) k FnRes.panics).calls) k (FnRes.ok v e)).invoked
      = false := by
  have h1 : doSeq (some m) k (FnRes.panics (V := V) (E := E))
      = ⟨DoOutcome.panicked, some (insertKey k ⟨none, none, 0, false⟩ m), true⟩ := by
    simp [doSeq, hm]
  rw [h1]
  refine ⟨rfl, rfl, ?_, ?_, ?_⟩
  · simpa using lookupKey_insertKey_self k ⟨none, none, 0, false⟩ m
  · simp [doSeq, lookupKey_insertKey_self]
  · simp [doSeq, lookupKey_insertKey_self]

/-- C3 witness: the amended behaviour at the concrete key "k" on an empty
registry with a subsequent operation returning (5, nil). -/
theorem C3_panic_poisons_key_witness :
    lookupKey "k" ([] : List (String × SfCall Nat String)) = none ∧
    ((doSeq (newSingleflightModel Nat String) "k" FnRes.panics).out
       = DoOutcome.panicked ∧
     (doSeq (newSingleflightModel Nat String) "k" FnRes.panics).invoked = true ∧
     lookupKey "k" ((doSeq (newSingleflightModel Nat String) "k"
       FnRes.panics).calls.getD []) = some ⟨none, none, 0, false⟩ ∧
     (doSeq ((doSeq (newSingleflightModel Nat String) "k" FnRes.panics).calls)
       "k" (FnRes.ok 5 none)).out = DoOutcome.blockedOnWait ∧
     (doSeq ((doSeq (newSingleflightModel Nat String) "k" FnRes.panics).calls)
       "k" (FnRes.ok 5 none)).invoked = false) :=
  ⟨by decide, C3_panic_poisons_key Nat String "k" [] (by decide) 5 none⟩

/-- C4 counterexample: the cleanup delete has no pointer-equality guard.
Applied to a state whose registry entry points at record 7 while the
cleaning thread's own record is 3, the delete step removes the entry all
the same — the entry for a different record is not left untouched. -/
theorem C4_unconditional_delete_counterexample :
    s4.reg = some 7 ∧
    s4.pcs[0]? = some (Pc.cleanupCS 3) ∧
    (3 ≠ 7) ∧
    (step fns0 s4 0).reg = none := by
  refine ⟨rfl, rfl, by decide, ?_⟩
  rw [step_delete fns0 s4 0 3 rfl]

/-- C4 amended: the executing caller deletes the registry entry for the
key unconditionally — `delete(sf.calls, key)` carries no check that the
entry still points at this execution's record; however, in every state
reachable from the initial one, the entry at cleanup time is exactly the
cleaning caller's own record, so the delete never removes an entry for a
different record. -/
theorem C4_delete_unconditional_but_safe (V E : Type)
    (fns : Nat → V × Option E) :
    (∀ (s : SfState V E) (t i : Nat), s.pcs[t]? = some (Pc.cleanupCS i) →
      (step fns s t).reg = none) ∧
    (∀ (n : Nat) (sched : List Nat) (t i : Nat),
      (run fns (init V E n) sched).pcs[t]? = some (Pc.cleanupCS i) →
      (run fns (init V E n) sched).reg = some i) := by
  constructor
  · intro s t i hpc
    rw [step_delete fns s t i hpc]
  · intro n sched t i hpc
    exact (inv_reach fns n sched).inflReg t i _ hpc (by simp [inFlightForB])

/-- C4 witness: in the concrete run, when thread 0 is at the cleanup
delete, the registry points at its own record 0, and the step deletes it. -/
theorem C4_delete_witness :
    (run fns0 (init Nat String 3) [0, 0, 1, 1, 2, 2, 0, 0, 1, 2, 0]).pcs[0]?
      = some (Pc.cleanupCS 0) ∧
    (run fns0 (init Nat String 3) [0, 0, 1, 1, 2, 2, 0, 0, 1, 2, 0]).reg
      = some 0 ∧
    (step fns0 (run fns0 (init Nat String 3) [0, 0, 1, 1, 2, 2, 0, 0, 1, 2, 0])
      0).reg = none :=
  ⟨by decide,
    (C4_delete_unconditional_but_safe Nat String fns0).2 3
      [0, 0, 1, 1, 2, 2, 0, 0, 1, 2, 0] 0 0 (by decide),
    (C4_delete_unconditional_but_safe Nat String fns0).1 _ 0 0 (by decide)⟩

/-- C5: no cross-generation caching.  From any registry with no in-flight
record for the key, a call invokes the operation, and a second call
issued only after the first has fully returned invokes it again: the
second call starts a fresh execution rather than replaying the first
outcome. -/
theorem C5_no_cross_generation_caching (V E : Type) (k : String)
    (m : List (String × SfCall V E)) (hm : lookupKey k m = none)
    (v₁ v₂ : V) (e₁ e₂ : Option E) :
    (doSeq (some m) k (FnRes.ok v₁ e₁)).invoked = true ∧
    (doSeq ((doSeq (some m) k (FnRes.ok v₁ e₁)).calls) k
      (FnRes.ok v₂ e₂)).invoked = true := by
  have h1 : doSeq (some m) k (FnRes.ok v₁ e₁)
      = ⟨DoOutcome.returned (some v₁), some (eraseKey k m), true⟩ := by
    simp [doSeq, hm, eraseKey_insertKey]
  rw [h1]
  refine ⟨rfl, ?_⟩
  simp [doSeq, lookupKey_eraseKey_self]

/-- C5 witness: two sequential calls for "k" on a fresh group both invoke
their operation. -/
theorem C5_no_caching_witness :
    lookupKey "k" ([] : List (String × SfCall Nat String)) = none ∧
    ((doSeq (newSingleflightModel Nat String) "k" (FnRes.ok 1 none)).invoked
       = true ∧
     (doSeq ((doSeq (newSingleflightModel Nat String) "k"
       (FnRes.ok 1 none)).calls) "k" (FnRes.ok 2 none)).invoked = true) :=
  ⟨by decide, C5_no_cross_generation_caching Nat String "k" [] (by decide) 1 2 none none⟩

/-- C9: the dups counter is observability-only.  First, the increment
happens with the registry lock held: whenever a thread is at the registry
check (the only statement that increments `dups`), it owns the lock.
Second, it is incremented exactly once per duplicate caller: in every
reachable state, each record's `dups` equals the number of threads that
joined it as duplicates.  Third, no outcome depends on it: two runs from
states that differ only in `dups` fields agree, after any schedule, on
everything except `dups` — in particular on every caller's return value. -/
theorem C9_dups_observability_only (V E : Type) (fns : Nat → V × Option E)
    (n : Nat) :
    (∀ (sched : List Nat) (t : Nat),
      (run fns (init V E n) sched).pcs[t]? = some Pc.entryCS →
      (run fns (init V E n) sched).lock = some t) ∧
    (∀ (sched : List Nat) (i : Nat),
      ((run fns (init V E n) sched).recs i).dups
        = (run fns (init V E n) sched).pcs.countP (waiterForB i)) ∧
    (∀ (s s' : SfState V E) (sched : List Nat), eraseDups s = eraseDups s' →
      eraseDups (run fns s sched) = eraseDups (run fns s' sched)) := by
  refine ⟨?_, ?_, ?_⟩
  · intro sched t h
    exact (inv_reach fns n sched).lockB t (Or.inl h)
  · intro sched i
    exact (inv_reach fns n sched).dupsEq i
  · intro s s' sched h
    exact run_dupsCongr fns s s' sched h

/-- C9 witness: a state artificially differing from the initial one only
in a record's dups field runs to the same observation; and in a concrete
reachable state a thread at the registry check owns the lock. -/
theorem C9_dups_observability_witness :
    (eraseDups { init Nat String 1 with
        recs := fun _ => ⟨none, none, 5, false⟩ }
      = eraseDups (init Nat String 1)) ∧
    (eraseDups (run fns0 { init Nat String 1 with
        recs := fun _ => ⟨none, none, 5, false⟩ } (schedA ++ schedB))
      = eraseDups (run fns0 (init Nat String 1) (schedA ++ schedB))) ∧
    ((run fns0 (init Nat String 3) [0]).pcs[0]? = some Pc.entryCS ∧
     (run fns0 (init Nat String 3) [0]).lock = some 0) :=
  ⟨rfl,
    (C9_dups_observability_only Nat String fns0 1).2.2 _ _ (schedA ++ schedB) rfl,
    by decide,
    (C9_dups_observability_only Nat String fns0 3).1 [0] 0 (by decide)⟩

/-- C10: the constructor returns a group with a non-nil empty registry,
so the first call for any key finds no existing entry, takes the
executing path (its operation is invoked), and never hits the
nil-map-insert panic — whatever the operation then does. -/
theorem C10_fresh_group_first_call_executes (V E : Type) (k : String)
    (fr : FnRes V E) :
    newSingleflightModel V E = some [] ∧
    lookupKey k ([] : List (String × SfCall V E)) = none ∧
    (doSeq (newSingleflightModel V E) k fr).invoked = true ∧
    (doSeq (newSingleflightModel V E) k fr).out ≠ DoOutcome.nilMapInsertPanic := by
  refine ⟨rfl, rfl, ?_, ?_⟩ <;>
    cases fr <;>
    simp [doSeq, newSingleflightModel, lookupKey]

end Spaceflight
